import Mathlib

/-!
Verification of the ordering, grid-layout, slicing, retry and adaptive-concurrency
core of a board image-alignment extension.

Strings are modelled as `List Char`; JavaScript numbers appearing in geometry are
modelled as `ℚ` (all operations used are exact on the inputs considered), counters
and sizes as `ℕ`, and comparator results as `ℤ`.  Remote calls, random draws and
the JPEG encoder are modelled as explicit oracle arguments.
-/

set_option maxHeartbeats 1600000

namespace GridAlign

/-! ### String helpers -/

/-- Value of a decimal digit character. -/
def digitVal (c : Char) : ℕ := c.toNat - 48

/-- Base-10 value of a list of digit characters (leading zeros contribute nothing),
modelling `Number.parseInt(run, 10)` on a non-empty all-digit string. -/
def digitsToNat (l : List Char) : ℕ := l.foldl (fun a c => 10 * a + digitVal c) 0

/-- JavaScript line terminators: the characters that `.` does not match in a regex
without the `s` flag. -/
def isLineTerm (c : Char) : Bool :=
  c = '\n' || c = '\r' || c.toNat = 0x2028 || c.toNat = 0x2029

/-- Characters matched by `\s` in a JavaScript regular expression. -/
def isJsSpace (c : Char) : Bool :=
  c = ' ' || c = '\t' || c = '\n' || c = '\r' || c.toNat = 11 || c.toNat = 12 ||
  c.toNat = 0xA0 || c.toNat = 0x1680 || (0x2000 ≤ c.toNat && c.toNat ≤ 0x200A) ||
  c.toNat = 0x2028 || c.toNat = 0x2029 || c.toNat = 0x202F || c.toNat = 0x205F ||
  c.toNat = 0x3000 || c.toNat = 0xFEFF

/-! ### `extractTrailingNumber` (src/app.js:45-50)

`str.match(/(\d+)(?!.*\d)/)`: the engine tries successive start offsets; at an
offset starting a digit the greedy group takes the whole run (a shorter group
leaves a digit directly after it, so the negative lookahead fails for it), and the
lookahead `(?!.*\d)` succeeds exactly when no digit occurs after the run before
the next line terminator (`.` does not cross line terminators). -/

/-- Regex scan of `/(\d+)(?!.*\d)/`: returns the captured digit run, if any. -/
def lastRunScan : List Char → Option (List Char)
  | [] => none
  | c :: cs =>
    if c.isDigit then
      if (((c :: cs).dropWhile Char.isDigit).takeWhile (fun x => !isLineTerm x)).any
          Char.isDigit then
        lastRunScan cs
      else
        some ((c :: cs).takeWhile Char.isDigit)
    else lastRunScan cs

/-- Embeds `extractTrailingNumber` from src/app.js lines 45-50 (identical copies in
src/unnamed/part_003).  `parseInt` of a non-empty digit run is never `NaN`, so the
`Number.isNaN` guard of the source never fires. -/
def extractTrailingNumber (s : List Char) : Option ℕ :=
  (lastRunScan s).map digitsToNat

/-- Spec-side definition: the last maximal run of decimal digits of a string,
i.e. the run of digits ending at the final digit of the string, extended
maximally to the left. -/
def lastMaximalRun (s : List Char) : List Char :=
  ((s.reverse.dropWhile (fun c => !c.isDigit)).takeWhile Char.isDigit).reverse

/-! Helper list lemmas for the `extractTrailingNumber` analysis. -/

theorem takeWhile_append_single_neg {α : Type} (p : α → Bool) (c : α) (hc : p c = false) :
    ∀ xs : List α, List.takeWhile p (xs ++ [c]) = List.takeWhile p xs := by
  intro xs
  induction xs with
  | nil => simp [List.takeWhile, hc]
  | cons x xs ih =>
    by_cases hx : p x
    · simp [List.takeWhile, hx, ih]
    · simp only [Bool.not_eq_true] at hx
      simp [List.takeWhile, hx]

theorem takeWhile_append_of_ex_neg {α : Type} (p : α → Bool) {xs : List α}
    (h : ∃ x ∈ xs, p x = false) (ys : List α) :
    List.takeWhile p (xs ++ ys) = List.takeWhile p xs := by
  induction xs with
  | nil => simp at h
  | cons x xs ih =>
    by_cases hx : p x
    · obtain ⟨z, hz, hpz⟩ := h
      rcases List.mem_cons.mp hz with rfl | hz
      · simp [hx] at hpz
      · simp [List.takeWhile, hx, ih ⟨z, hz, hpz⟩]
    · simp only [Bool.not_eq_true] at hx
      simp [List.takeWhile, hx]

theorem dropWhile_append_of_ex_neg {α : Type} (p : α → Bool) {xs : List α}
    (h : ∃ x ∈ xs, p x = false) (ys : List α) :
    List.dropWhile p (xs ++ ys) = List.dropWhile p xs ++ ys := by
  induction xs with
  | nil => simp at h
  | cons x xs ih =>
    by_cases hx : p x
    · obtain ⟨z, hz, hpz⟩ := h
      rcases List.mem_cons.mp hz with rfl | hz
      · simp [hx] at hpz
      · simp [List.dropWhile, hx, ih ⟨z, hz, hpz⟩]
    · simp only [Bool.not_eq_true] at hx
      simp [List.dropWhile, hx]

theorem dropWhile_append_of_all {α : Type} (p : α → Bool) {xs : List α}
    (h : ∀ x ∈ xs, p x = true) (ys : List α) :
    List.dropWhile p (xs ++ ys) = List.dropWhile p ys := by
  induction xs with
  | nil => simp
  | cons x xs ih =>
    have hx := h x (List.mem_cons_self x xs)
    simp [List.dropWhile, hx, ih (fun z hz => h z (List.mem_cons_of_mem x hz))]

theorem dropWhile_eq_self_of_all_neg {α : Type} (p : α → Bool) {xs : List α}
    (h : ∀ x ∈ xs, p x = false) : List.dropWhile p xs = xs := by
  cases xs with
  | nil => rfl
  | cons x xs => simp [List.dropWhile, h x (List.mem_cons_self x xs)]

theorem takeWhile_eq_self_of_all {α : Type} (p : α → Bool) {xs : List α}
    (h : ∀ x ∈ xs, p x = true) : List.takeWhile p xs = xs := by
  induction xs with
  | nil => rfl
  | cons x xs ih =>
    simp [List.takeWhile, h x (List.mem_cons_self x xs),
      ih (fun z hz => h z (List.mem_cons_of_mem x hz))]

theorem mem_of_mem_dropWhile {α : Type} {p : α → Bool} {x : α} {l : List α}
    (h : x ∈ List.dropWhile p l) : x ∈ l :=
  (List.dropWhile_sublist p).subset h

/-- On strings free of line terminators, the regex scan returns exactly the last
maximal digit run (and nothing when the string has no digit). -/
theorem lastRunScan_eq (s : List Char) (hs : ∀ c ∈ s, isLineTerm c = false) :
    lastRunScan s =
      if s.any Char.isDigit then some (lastMaximalRun s) else none := by
  induction s with
  | nil => simp [lastRunScan]
  | cons c cs ih =>
    have hcs : ∀ x ∈ cs, isLineTerm x = false :=
      fun x hx => hs x (List.mem_cons_of_mem c hx)
    by_cases hc : c.isDigit
    · -- the offset starts a digit run
      have hdrop : (c :: cs).dropWhile Char.isDigit = cs.dropWhile Char.isDigit := by
        simp [List.dropWhile, hc]
      have htake :
          ((cs.dropWhile Char.isDigit).takeWhile (fun x => !isLineTerm x)) =
            cs.dropWhile Char.isDigit :=
        takeWhile_eq_self_of_all _ (fun x hx => by
          simp [hcs x (mem_of_mem_dropWhile hx)])
      by_cases hb : (cs.dropWhile Char.isDigit).any Char.isDigit
      · -- a digit occurs after this run: the engine moves on
        obtain ⟨z, hz, hdz⟩ := List.any_eq_true.mp hb
        have hzcs : z ∈ cs := mem_of_mem_dropWhile hz
        have hcsany : cs.any Char.isDigit = true := List.any_eq_true.mpr ⟨z, hzcs, hdz⟩
        have hlhs : lastRunScan (c :: cs) = lastRunScan cs := by
          rw [lastRunScan, if_pos hc, if_pos (by rw [hdrop, htake]; exact hb)]
        -- the last maximal run of `c :: cs` is that of `cs`
        have hruneq : lastMaximalRun (c :: cs) = lastMaximalRun cs := by
          unfold lastMaximalRun
          rw [List.reverse_cons]
          have hex : ∃ y ∈ cs.reverse, (!y.isDigit) = false :=
            ⟨z, List.mem_reverse.mpr hzcs, by simp [hdz]⟩
          rw [dropWhile_append_of_ex_neg _ hex]
          -- the dropped reversed tail still holds a non-digit character
          have hexnd : ∃ y ∈ cs.reverse.dropWhile (fun c => !c.isDigit),
              y.isDigit = false := by
            by_contra hall
            push_neg at hall
            have hall' : ∀ y ∈ (cs.reverse.dropWhile (fun c => !c.isDigit)).reverse,
                Char.isDigit y = true := by
              intro y hy
              cases hy' : y.isDigit
              · exact absurd hy' (hall y (List.mem_reverse.mp hy))
              · rfl
            have hdecomp : cs.reverse.takeWhile (fun c => !c.isDigit) ++
                cs.reverse.dropWhile (fun c => !c.isDigit) = cs.reverse :=
              List.takeWhile_append_dropWhile _ _
            have hcseq : cs = (cs.reverse.dropWhile (fun c => !c.isDigit)).reverse ++
                (cs.reverse.takeWhile (fun c => !c.isDigit)).reverse := by
              have h1 := congrArg List.reverse hdecomp
              rw [List.reverse_append, List.reverse_reverse] at h1
              exact h1.symm
            have hw1 : ∀ x ∈ (cs.reverse.takeWhile (fun c => !c.isDigit)).reverse,
                Char.isDigit x = false := by
              intro x hx
              have := List.mem_takeWhile_imp (List.mem_reverse.mp hx)
              simpa using this
            have hrest : cs.dropWhile Char.isDigit =
                (cs.reverse.takeWhile (fun c => !c.isDigit)).reverse := by
              conv_lhs => rw [hcseq]
              rw [dropWhile_append_of_all Char.isDigit hall',
                dropWhile_eq_self_of_all_neg Char.isDigit hw1]
            rw [hrest] at hb
            obtain ⟨w, hw, hdw⟩ := List.any_eq_true.mp hb
            rw [hw1 w hw] at hdw
            exact absurd hdw (by simp)
          rw [takeWhile_append_of_ex_neg _ hexnd]
        rw [hlhs, ih hcs, hruneq]
        have hall2 : (c :: cs).any Char.isDigit = true := by simp [hc]
        rw [hall2, hcsany]
      · -- no digit after the run: the scan returns this run
        have hlhs : lastRunScan (c :: cs) =
            some ((c :: cs).takeWhile Char.isDigit) := by
          rw [lastRunScan, if_pos hc, if_neg (by rw [hdrop, htake]; simpa using hb)]
        have hrestall : ∀ x ∈ ((c :: cs).dropWhile Char.isDigit).reverse,
            (!Char.isDigit x) = true := by
          intro x hx
          have hx' : x ∈ cs.dropWhile Char.isDigit := by
            rw [← hdrop]; exact List.mem_reverse.mp hx
          cases hx2 : x.isDigit
          · simp
          · exact absurd (List.any_eq_true.mpr ⟨x, hx', hx2⟩) (by simpa using hb)
        have hrund : ∀ x ∈ ((c :: cs).takeWhile Char.isDigit).reverse,
            Char.isDigit x = true := by
          intro x hx
          exact List.mem_takeWhile_imp (List.mem_reverse.mp hx)
        have hrund' : ∀ x ∈ ((c :: cs).takeWhile Char.isDigit).reverse,
            (!Char.isDigit x) = false := by
          intro x hx
          simp [hrund x hx]
        have hruneq : lastMaximalRun (c :: cs) = (c :: cs).takeWhile Char.isDigit := by
          unfold lastMaximalRun
          have hdecomp : (c :: cs).takeWhile Char.isDigit ++
              (c :: cs).dropWhile Char.isDigit = c :: cs :=
            List.takeWhile_append_dropWhile _ _
          have hrev : (c :: cs).reverse =
              ((c :: cs).dropWhile Char.isDigit).reverse ++
                ((c :: cs).takeWhile Char.isDigit).reverse := by
            have h1 := congrArg List.reverse hdecomp
            rw [List.reverse_append] at h1
            exact h1.symm
          rw [hrev, dropWhile_append_of_all _ hrestall,
            dropWhile_eq_self_of_all_neg _ hrund',
            takeWhile_eq_self_of_all _ hrund, List.reverse_reverse]
        rw [hlhs, hruneq]
        have hall2 : (c :: cs).any Char.isDigit = true := by simp [hc]
        rw [hall2]
        simp
    · -- the offset is not a digit: the engine moves on
      have hc' : c.isDigit = false := by simpa using hc
      have hlhs : lastRunScan (c :: cs) = lastRunScan cs := by
        rw [lastRunScan, if_neg (by simp [hc'])]
      rw [hlhs, ih hcs]
      by_cases hcsany : cs.any Char.isDigit
      · have hruneq : lastMaximalRun (c :: cs) = lastMaximalRun cs := by
          unfold lastMaximalRun
          rw [List.reverse_cons]
          obtain ⟨z, hz, hdz⟩ := List.any_eq_true.mp hcsany
          have hex : ∃ y ∈ cs.reverse, (!y.isDigit) = false :=
            ⟨z, List.mem_reverse.mpr hz, by simp [hdz]⟩
          rw [dropWhile_append_of_ex_neg _ hex,
            takeWhile_append_single_neg _ c hc']
        have hall2 : (c :: cs).any Char.isDigit = true := by simp [hcsany]
        rw [hall2, hruneq, if_pos hcsany]
        simp
      · have hany : (c :: cs).any Char.isDigit = false := by
          rw [List.any_cons, hc', Bool.false_or]
          cases h2 : cs.any Char.isDigit
          · rfl
          · exact absurd h2 hcsany
        rw [if_neg hcsany, hany]
        simp


/-- The scan fails exactly when the string holds no digit at all. -/
theorem lastRunScan_eq_none_iff (s : List Char) :
    lastRunScan s = none ↔ s.any Char.isDigit = false := by
  induction s with
  | nil => simp [lastRunScan]
  | cons c cs ih =>
    by_cases hc : c.isDigit
    · have hdrop : (c :: cs).dropWhile Char.isDigit = cs.dropWhile Char.isDigit := by
        simp [List.dropWhile, hc]
      by_cases hb : (((c :: cs).dropWhile Char.isDigit).takeWhile
          (fun x => !isLineTerm x)).any Char.isDigit
      · rw [lastRunScan, if_pos hc, if_pos hb]
        obtain ⟨z, hz, hdz⟩ := List.any_eq_true.mp hb
        have hzcs : z ∈ cs := by
          rw [hdrop] at hz
          exact mem_of_mem_dropWhile ((List.takeWhile_sublist _).subset hz)
        have hcsany : cs.any Char.isDigit = true := List.any_eq_true.mpr ⟨z, hzcs, hdz⟩
        rw [ih]
        constructor
        · intro h; rw [h] at hcsany; exact absurd hcsany (by simp)
        · intro h; simp [hc] at h
      · rw [lastRunScan, if_pos hc, if_neg hb]
        constructor
        · intro h; exact absurd h (by simp)
        · intro h; simp [hc] at h
    · have hc' : c.isDigit = false := by simpa using hc
      rw [lastRunScan, if_neg (by simp [hc'])]
      rw [ih]
      simp [hc']


theorem isLineTerm_not_digit (c : Char) (h : isLineTerm c = true) :
    c.isDigit = false := by
  unfold isLineTerm at h
  simp only [Bool.or_eq_true, decide_eq_true_eq] at h
  rcases h with ((h | h) | h) | h
  · subst h; decide
  · subst h; decide
  · cases hd : c.isDigit
    · rfl
    · exfalso
      unfold Char.isDigit at hd
      rw [Bool.and_eq_true, decide_eq_true_eq, decide_eq_true_eq] at hd
      have h2 : c.val.toNat ≤ (57 : UInt32).toNat := hd.2
      have h3 : (57 : UInt32).toNat = 57 := rfl
      unfold Char.toNat at h
      omega
  · cases hd : c.isDigit
    · rfl
    · exfalso
      unfold Char.isDigit at hd
      rw [Bool.and_eq_true, decide_eq_true_eq, decide_eq_true_eq] at hd
      have h2 : c.val.toNat ≤ (57 : UInt32).toNat := hd.2
      have h3 : (57 : UInt32).toNat = 57 := rfl
      unfold Char.toNat at h
      omega


/-- The lines of a string: maximal line-terminator-free segments, in order
(what the lookahead dot can see from any position is a suffix of one of them). -/
def linesSplit : List Char → List (List Char)
  | [] => [[]]
  | c :: cs =>
    if isLineTerm c then [] :: linesSplit cs
    else
      match linesSplit cs with
      | [] => [[c]]
      | l :: ls => (c :: l) :: ls

theorem dropWhile_append_cons_neg {α : Type} (p : α → Bool) (xs : List α)
    (y : α) (ys : List α) (hy : p y = false) :
    List.dropWhile p (xs ++ y :: ys) = xs.dropWhile p ++ y :: ys := by
  induction xs with
  | nil => simp [List.dropWhile, hy]
  | cons x xs ih =>
    by_cases hx : p x
    · simp [List.dropWhile, hx, ih]
    · simp only [Bool.not_eq_true] at hx
      simp [List.dropWhile, hx]

theorem takeWhile_append_cons_neg {α : Type} (p : α → Bool) (xs : List α)
    (y : α) (ys : List α) (hy : p y = false) :
    List.takeWhile p (xs ++ y :: ys) = xs.takeWhile p := by
  induction xs with
  | nil => simp [List.takeWhile, hy]
  | cons x xs ih =>
    by_cases hx : p x
    · simp [List.takeWhile, hx, ih]
    · simp only [Bool.not_eq_true] at hx
      simp [List.takeWhile, hx]

/-- Behind a line terminator the scan of the leading line proceeds exactly as on
that line alone: the lookahead cannot see past the terminator, so the result is
the last maximal run of the leading line if it has a digit, and otherwise the
scan of the remainder after the terminator. -/
theorem lastRunScan_split (l : List Char) (t : Char) (rest : List Char)
    (hl : ∀ c ∈ l, isLineTerm c = false) (ht : isLineTerm t = true) :
    lastRunScan (l ++ t :: rest) =
      if l.any Char.isDigit then some (lastMaximalRun l) else lastRunScan rest := by
  have htd : t.isDigit = false := isLineTerm_not_digit t ht
  have htnl : (fun x => !isLineTerm x) t = false := by simp [ht]
  induction l with
  | nil =>
    rw [List.nil_append, lastRunScan, if_neg (by simp [htd])]
    simp
  | cons c cs ih =>
    have hcs : ∀ x ∈ cs, isLineTerm x = false :=
      fun x hx => hl x (List.mem_cons_of_mem c hx)
    by_cases hc : c.isDigit
    · -- the offset starts a digit run
      have hdrop : (c :: (cs ++ t :: rest)).dropWhile Char.isDigit =
          cs.dropWhile Char.isDigit ++ t :: rest := by
        rw [List.dropWhile_cons_of_pos hc, dropWhile_append_cons_neg _ _ _ _ htd]
      have htake : ((cs.dropWhile Char.isDigit ++ t :: rest).takeWhile
            (fun x => !isLineTerm x)) = cs.dropWhile Char.isDigit := by
        rw [takeWhile_append_cons_neg (fun x => !isLineTerm x) _ t rest
          (by simp [ht])]
        exact takeWhile_eq_self_of_all _ (fun x hx => by
          simp [hcs x (mem_of_mem_dropWhile hx)])
      by_cases hb : (cs.dropWhile Char.isDigit).any Char.isDigit
      · -- a digit occurs after this run on the same line: the engine moves on
        obtain ⟨z, hz, hdz⟩ := List.any_eq_true.mp hb
        have hzcs : z ∈ cs := mem_of_mem_dropWhile hz
        have hcsany : cs.any Char.isDigit = true := List.any_eq_true.mpr ⟨z, hzcs, hdz⟩
        have hlhs : lastRunScan (c :: cs ++ t :: rest) =
            lastRunScan (cs ++ t :: rest) := by
          rw [List.cons_append, lastRunScan, if_pos hc,
            if_pos (by rw [hdrop, htake]; exact hb)]
        have hruneq : lastMaximalRun (c :: cs) = lastMaximalRun cs := by
          unfold lastMaximalRun
          rw [List.reverse_cons]
          have hex : ∃ y ∈ cs.reverse, (!y.isDigit) = false :=
            ⟨z, List.mem_reverse.mpr hzcs, by simp [hdz]⟩
          rw [dropWhile_append_of_ex_neg _ hex]
          have hexnd : ∃ y ∈ cs.reverse.dropWhile (fun c => !c.isDigit),
              y.isDigit = false := by
            by_contra hall
            push_neg at hall
            have hall' : ∀ y ∈ (cs.reverse.dropWhile (fun c => !c.isDigit)).reverse,
                Char.isDigit y = true := by
              intro y hy
              cases hy' : y.isDigit
              · exact absurd hy' (hall y (List.mem_reverse.mp hy))
              · rfl
            have hdecomp : cs.reverse.takeWhile (fun c => !c.isDigit) ++
                cs.reverse.dropWhile (fun c => !c.isDigit) = cs.reverse :=
              List.takeWhile_append_dropWhile _ _
            have hcseq : cs = (cs.reverse.dropWhile (fun c => !c.isDigit)).reverse ++
                (cs.reverse.takeWhile (fun c => !c.isDigit)).reverse := by
              have h1 := congrArg List.reverse hdecomp
              rw [List.reverse_append, List.reverse_reverse] at h1
              exact h1.symm
            have hw1 : ∀ x ∈ (cs.reverse.takeWhile (fun c => !c.isDigit)).reverse,
                Char.isDigit x = false := by
              intro x hx
              have := List.mem_takeWhile_imp (List.mem_reverse.mp hx)
              simpa using this
            have hrest : cs.dropWhile Char.isDigit =
                (cs.reverse.takeWhile (fun c => !c.isDigit)).reverse := by
              conv_lhs => rw [hcseq]
              rw [dropWhile_append_of_all Char.isDigit hall',
                dropWhile_eq_self_of_all_neg Char.isDigit hw1]
            rw [hrest] at hb
            obtain ⟨w, hw, hdw⟩ := List.any_eq_true.mp hb
            rw [hw1 w hw] at hdw
            exact absurd hdw (by simp)
          rw [takeWhile_append_of_ex_neg _ hexnd]
        rw [hlhs, ih hcs, hruneq]
        have hall2 : (c :: cs).any Char.isDigit = true := by simp [hc]
        rw [hall2, hcsany]
      · -- no digit after the run on this line: the scan returns this run
        have hlhs : lastRunScan (c :: cs ++ t :: rest) =
            some ((c :: (cs ++ t :: rest)).takeWhile Char.isDigit) := by
          rw [List.cons_append, lastRunScan, if_pos hc,
            if_neg (by rw [hdrop, htake]; simpa using hb)]
        have htk : (c :: (cs ++ t :: rest)).takeWhile Char.isDigit =
            (c :: cs).takeWhile Char.isDigit := by
          have h1 : c :: (cs ++ t :: rest) = (c :: cs) ++ t :: rest := by simp
          rw [h1, takeWhile_append_cons_neg Char.isDigit _ t rest htd]
        have hrestall : ∀ x ∈ ((c :: cs).dropWhile Char.isDigit).reverse,
            (!Char.isDigit x) = true := by
          intro x hx
          have hx' : x ∈ cs.dropWhile Char.isDigit := by
            rw [← List.dropWhile_cons_of_pos hc]
            exact List.mem_reverse.mp hx
          cases hx2 : x.isDigit
          · simp
          · exact absurd (List.any_eq_true.mpr ⟨x, hx', hx2⟩) (by simpa using hb)
        have hrund : ∀ x ∈ ((c :: cs).takeWhile Char.isDigit).reverse,
            Char.isDigit x = true := by
          intro x hx
          exact List.mem_takeWhile_imp (List.mem_reverse.mp hx)
        have hrund' : ∀ x ∈ ((c :: cs).takeWhile Char.isDigit).reverse,
            (!Char.isDigit x) = false := by
          intro x hx
          simp [hrund x hx]
        have hruneq : lastMaximalRun (c :: cs) = (c :: cs).takeWhile Char.isDigit := by
          unfold lastMaximalRun
          have hdecomp : (c :: cs).takeWhile Char.isDigit ++
              (c :: cs).dropWhile Char.isDigit = c :: cs :=
            List.takeWhile_append_dropWhile _ _
          have hrev : (c :: cs).reverse =
              ((c :: cs).dropWhile Char.isDigit).reverse ++
                ((c :: cs).takeWhile Char.isDigit).reverse := by
            have h1 := congrArg List.reverse hdecomp
            rw [List.reverse_append] at h1
            exact h1.symm
          rw [hrev, dropWhile_append_of_all _ hrestall,
            dropWhile_eq_self_of_all_neg _ hrund',
            takeWhile_eq_self_of_all _ hrund, List.reverse_reverse]
        rw [hlhs, htk, hruneq]
        have hall2 : (c :: cs).any Char.isDigit = true := by simp [hc]
        rw [hall2]
        simp
    · -- the offset is not a digit: the engine moves on
      have hc' : c.isDigit = false := by simpa using hc
      have hlhs : lastRunScan (c :: cs ++ t :: rest) =
          lastRunScan (cs ++ t :: rest) := by
        rw [List.cons_append, lastRunScan, if_neg (by simp [hc'])]
      rw [hlhs, ih hcs]
      by_cases hcsany : cs.any Char.isDigit
      · have hruneq : lastMaximalRun (c :: cs) = lastMaximalRun cs := by
          unfold lastMaximalRun
          rw [List.reverse_cons]
          obtain ⟨z, hz, hdz⟩ := List.any_eq_true.mp hcsany
          have hex : ∃ y ∈ cs.reverse, (!y.isDigit) = false :=
            ⟨z, List.mem_reverse.mpr hz, by simp [hdz]⟩
          rw [dropWhile_append_of_ex_neg _ hex,
            takeWhile_append_single_neg _ c hc']
        have hall2 : (c :: cs).any Char.isDigit = true := by simp [hcsany]
        rw [hall2, hruneq, if_pos hcsany]
        simp
      · have hany : (c :: cs).any Char.isDigit = false := by
          rw [List.any_cons, hc', Bool.false_or]
          cases h2 : cs.any Char.isDigit
          · rfl
          · exact absurd h2 hcsany
        rw [if_neg hcsany, hany]
        simp


theorem linesSplit_no_term (l : List Char) (hl : ∀ c ∈ l, isLineTerm c = false) :
    linesSplit l = [l] := by
  induction l with
  | nil => rfl
  | cons c cs ih =>
    have hc := hl c (List.mem_cons_self c cs)
    have ihcs := ih (fun x hx => hl x (List.mem_cons_of_mem c hx))
    rw [linesSplit, if_neg (by simp [hc]), ihcs]

theorem linesSplit_append (l : List Char) (t : Char) (rest : List Char)
    (hl : ∀ c ∈ l, isLineTerm c = false) (ht : isLineTerm t = true) :
    linesSplit (l ++ t :: rest) = l :: linesSplit rest := by
  induction l with
  | nil =>
    rw [List.nil_append, linesSplit, if_pos ht]
  | cons c cs ih =>
    have hc := hl c (List.mem_cons_self c cs)
    have ihcs := ih (fun x hx => hl x (List.mem_cons_of_mem c hx))
    rw [List.cons_append, linesSplit, if_neg (by simp [hc]), ihcs]

theorem dropWhile_cons_head_neg {α : Type} (p : α → Bool) :
    ∀ (s : List α) (y : α) (ys : List α), s.dropWhile p = y :: ys → p y = false := by
  intro s
  induction s with
  | nil => intro y ys h; exact absurd h (by simp [List.dropWhile])
  | cons x xs ih =>
    intro y ys h
    by_cases hx : p x
    · rw [List.dropWhile_cons_of_pos hx] at h
      exact ih y ys h
    · simp only [Bool.not_eq_true] at hx
      rw [List.dropWhile_cons_of_neg (by simp [hx])] at h
      rw [List.cons.injEq] at h
      rw [← h.1]
      exact hx

/-- The regex scan, in full generality: it finds the first line containing a
digit and returns that line last maximal digit run. -/
theorem lastRunScan_lines_aux (n : ℕ) : ∀ s : List Char, s.length ≤ n →
    lastRunScan s =
      ((linesSplit s).find? (fun l => l.any Char.isDigit)).map lastMaximalRun := by
  induction n with
  | zero =>
    intro s hs
    have hnil : s = [] := List.length_eq_zero.mp (Nat.le_zero.mp hs)
    subst hnil
    rfl
  | succ n ih =>
    intro s hs
    have hl : ∀ c ∈ s.takeWhile (fun c => !isLineTerm c), isLineTerm c = false := by
      intro c hc
      have := List.mem_takeWhile_imp hc
      simpa using this
    have hdecomp : s.takeWhile (fun c => !isLineTerm c) ++
        s.dropWhile (fun c => !isLineTerm c) = s :=
      List.takeWhile_append_dropWhile _ _
    cases hr : s.dropWhile (fun c => !isLineTerm c) with
    | nil =>
      have hsl : s = s.takeWhile (fun c => !isLineTerm c) := by
        conv_lhs => rw [← hdecomp]
        rw [hr, List.append_nil]
      rw [hsl, lastRunScan_eq _ hl, linesSplit_no_term _ hl]
      by_cases hany : (s.takeWhile (fun c => !isLineTerm c)).any Char.isDigit
      · have hfind : List.find? (fun l => l.any Char.isDigit)
            [s.takeWhile (fun c => !isLineTerm c)] =
            some (s.takeWhile (fun c => !isLineTerm c)) :=
          List.find?_cons_of_pos _ (by simpa using hany)
        rw [if_pos hany, hfind, Option.map_some']
      · have hfind : List.find? (fun l => l.any Char.isDigit)
            [s.takeWhile (fun c => !isLineTerm c)] =
            List.find? (fun l => l.any Char.isDigit) [] :=
          List.find?_cons_of_neg _ (by simpa using hany)
        rw [if_neg hany, hfind]
        rfl
    | cons t rest =>
      have ht : isLineTerm t = true := by
        have := dropWhile_cons_head_neg (fun c => !isLineTerm c) s t rest hr
        simpa using this
      have hslr : s = s.takeWhile (fun c => !isLineTerm c) ++ t :: rest := by
        conv_lhs => rw [← hdecomp]
        rw [hr]
      have hrestlen : rest.length ≤ n := by
        have hlen := congrArg List.length hslr
        rw [List.length_append, List.length_cons] at hlen
        omega
      rw [hslr, lastRunScan_split _ t rest hl ht, linesSplit_append _ t rest hl ht]
      by_cases hany : (s.takeWhile (fun c => !isLineTerm c)).any Char.isDigit
      · have hfind : List.find? (fun l => l.any Char.isDigit)
            (s.takeWhile (fun c => !isLineTerm c) :: linesSplit rest) =
            some (s.takeWhile (fun c => !isLineTerm c)) :=
          List.find?_cons_of_pos _ (by simpa using hany)
        rw [if_pos hany, hfind, Option.map_some']
      · have hfind : List.find? (fun l => l.any Char.isDigit)
            (s.takeWhile (fun c => !isLineTerm c) :: linesSplit rest) =
            List.find? (fun l => l.any Char.isDigit) (linesSplit rest) :=
          List.find?_cons_of_neg _ (by simpa using hany)
        rw [if_neg hany, hfind]
        exact ih rest hrestlen


/-- The regex result, for every string: the last maximal digit run of the first
line that contains a digit (`none` when no line does). -/
theorem lastRunScan_lines (s : List Char) :
    lastRunScan s =
      ((linesSplit s).find? (fun l => l.any Char.isDigit)).map lastMaximalRun :=
  lastRunScan_lines_aux s.length s le_rfl

/-! ### Claim C1 -/

/-- C1 counterexample: the claim says `extractTrailingNumber` returns the value of
the last maximal digit run anywhere in the string, but on a string with a line
terminator the regex lookahead `(?!.*\\d)` cannot see past the line break: on
"1\\n2" the code returns 1 although the last maximal digit run is "2" (value 2). -/
theorem c1_counterexample :
    extractTrailingNumber ('1' :: '\n' :: '2' :: []) = some 1 ∧
    lastMaximalRun ('1' :: '\n' :: '2' :: []) = ['2'] ∧
    digitsToNat ['2'] = 2 := by
  decide

/-- C1 (amended, final form): for every string, `extractTrailingNumber` returns
the base-10 value (leading zeros ignored) of the last maximal run of decimal
digits of the first line (splitting on line terminators) that contains a digit;
in particular on strings free of line terminators it is the value of the last
maximal digit run anywhere in the string; and for every string it returns
`none` exactly when the string contains no digit. -/
theorem c1_extractTrailingNumber_spec :
    (∀ s : List Char, extractTrailingNumber s =
      ((linesSplit s).find? (fun l => l.any Char.isDigit)).map
        (fun l => digitsToNat (lastMaximalRun l))) ∧
    (∀ s : List Char, (∀ c ∈ s, isLineTerm c = false) →
      extractTrailingNumber s =
        if s.any Char.isDigit then some (digitsToNat (lastMaximalRun s))
        else none) ∧
    (∀ s : List Char, extractTrailingNumber s = none ↔
      s.any Char.isDigit = false) := by
  refine ⟨?_, ?_, ?_⟩
  · intro s
    rw [extractTrailingNumber, lastRunScan_lines s, Option.map_map]
    rfl
  · intro s hs
    rw [extractTrailingNumber, lastRunScan_eq s hs]
    by_cases h : s.any Char.isDigit <;> simp [h]
  · intro s
    rw [extractTrailingNumber]
    constructor
    · intro h
      exact (lastRunScan_eq_none_iff s).mp (by
        cases h2 : lastRunScan s
        · rfl
        · rw [h2] at h; exact absurd h (by simp))
    · intro h
      rw [(lastRunScan_eq_none_iff s).mpr h]
      rfl

/-- C1 witness: the general form evaluated on "1\n2" gives 1 (first line with a
digit is "1"), and the line-terminator-free form on "tile_0003.png" gives 3. -/
theorem c1_extractTrailingNumber_spec_witness :
    (((linesSplit ('1' :: '\n' :: '2' :: [])).find?
        (fun l => l.any Char.isDigit)).map
      (fun l => digitsToNat (lastMaximalRun l)) = some 1) ∧
    extractTrailingNumber ('1' :: '\n' :: '2' :: []) = some 1 ∧
    extractTrailingNumber
      ('t' :: 'i' :: 'l' :: 'e' :: '_' :: '0' :: '0' :: '0' :: '3' :: '.' ::
        'p' :: 'n' :: 'g' :: []) = some 3 := by
  refine ⟨by decide, ?_, ?_⟩
  · exact (c1_extractTrailingNumber_spec.1 ('1' :: '\n' :: '2' :: [])).trans
      (by decide)
  · exact (c1_extractTrailingNumber_spec.2.1
      ('t' :: 'i' :: 'l' :: 'e' :: '_' :: '0' :: '0' :: '0' :: '3' :: '.' ::
        'p' :: 'n' :: 'g' :: []) (by decide)).trans (by decide)

/-! ### JS string comparison and the stable sort model -/

/-- JS `<` on strings: lexicographic comparison by code unit. -/
def strLt : List Char → List Char → Bool
  | _, [] => false
  | [], _ :: _ => true
  | a :: as, b :: bs =>
    if a.toNat < b.toNat then true
    else if b.toNat < a.toNat then false
    else strLt as bs

theorem strLt_nil_right : ∀ a : List Char, strLt a [] = false := by
  intro a
  cases a <;> rfl

theorem strLt_irrefl (a : List Char) : strLt a a = false := by
  induction a with
  | nil => rfl
  | cons c cs ih => simp [strLt, ih]

theorem strLt_asymm : ∀ {a b : List Char}, strLt a b = true → strLt b a = false
  | a, [], h => by rw [strLt_nil_right] at h; exact Bool.noConfusion h
  | [], _ :: _, _ => strLt_nil_right _
  | a :: as, b :: bs, h => by
    rw [strLt] at h ⊢
    by_cases h1 : a.toNat < b.toNat
    · rw [if_neg (by omega), if_pos h1]
    · rw [if_neg h1] at h
      by_cases h2 : b.toNat < a.toNat
      · rw [if_pos h2] at h; exact Bool.noConfusion h
      · rw [if_neg h2] at h
        rw [if_neg h2, if_neg h1]
        exact strLt_asymm h

theorem strLt_trans : ∀ {a b c : List Char},
    strLt a b = true → strLt b c = true → strLt a c = true
  | _, b, [], _, h2 => by rw [strLt_nil_right] at h2; exact Bool.noConfusion h2
  | a, [], _ :: _, h1, _ => by rw [strLt_nil_right] at h1; exact Bool.noConfusion h1
  | [], _ :: _, _ :: _, _, _ => rfl
  | a :: as, b :: bs, c :: cs, h1, h2 => by
    rw [strLt] at h1 h2 ⊢
    by_cases hab : a.toNat < b.toNat
    · by_cases hbc : b.toNat < c.toNat
      · rw [if_pos (by omega)]
      · rw [if_neg hbc] at h2
        by_cases hcb : c.toNat < b.toNat
        · rw [if_pos hcb] at h2; exact Bool.noConfusion h2
        · rw [if_pos (by omega)]
    · rw [if_neg hab] at h1
      by_cases hba : b.toNat < a.toNat
      · rw [if_pos hba] at h1; exact Bool.noConfusion h1
      · rw [if_neg hba] at h1
        by_cases hbc : b.toNat < c.toNat
        · rw [if_pos (by omega)]
        · rw [if_neg hbc] at h2
          by_cases hcb : c.toNat < b.toNat
          · rw [if_pos hcb] at h2; exact Bool.noConfusion h2
          · rw [if_neg hcb] at h2
            rw [if_neg (by omega), if_neg (by omega)]
            exact strLt_trans h1 h2

theorem strLt_eq_of_not : ∀ {a b : List Char},
    strLt a b = false → strLt b a = false → a = b
  | [], [], _, _ => rfl
  | [], _ :: _, h1, _ => by rw [strLt] at h1; exact Bool.noConfusion h1
  | _ :: _, [], _, h2 => by rw [strLt] at h2; exact Bool.noConfusion h2
  | a :: as, b :: bs, h1, h2 => by
    rw [strLt] at h1 h2
    by_cases hab : a.toNat < b.toNat
    · rw [if_pos hab] at h1; exact Bool.noConfusion h1
    · rw [if_neg hab] at h1
      by_cases hba : b.toNat < a.toNat
      · rw [if_pos hba] at h2; exact Bool.noConfusion h2
      · rw [if_neg hba] at h1
        rw [if_neg (by omega), if_neg (by omega)] at h2
        have h3 : a.toNat = b.toNat := by omega
        unfold Char.toNat at h3
        have hc : a = b := Char.eq_of_val_eq (UInt32.toNat.inj h3)
        rw [hc, strLt_eq_of_not h1 h2]

/-- Insertion into a sorted list, used to model `Array.prototype.sort`. -/
def insertLe {α : Type} (le : α → α → Bool) (x : α) : List α → List α
  | [] => [x]
  | y :: ys => if le x y then x :: y :: ys else y :: insertLe le x ys

/-- Insertion sort; with a total transitive `le` this produces the unique
permutation sorted by `le`, which is what `Array.prototype.sort` returns for a
consistent comparator whose ties occur only between equal elements. -/
def sortLe {α : Type} (le : α → α → Bool) : List α → List α
  | [] => []
  | x :: xs => insertLe le x (sortLe le xs)

theorem insertLe_perm {α : Type} (le : α → α → Bool) (x : α) :
    ∀ l : List α, List.Perm (insertLe le x l) (x :: l) := by
  intro l
  induction l with
  | nil => exact List.Perm.refl _
  | cons y ys ih =>
    rw [insertLe]
    by_cases h : le x y
    · rw [if_pos h]
    · rw [if_neg h]
      exact (ih.cons y).trans (List.Perm.swap x y ys)

theorem sortLe_perm {α : Type} (le : α → α → Bool) :
    ∀ l : List α, List.Perm (sortLe le l) l := by
  intro l
  induction l with
  | nil => exact List.Perm.refl _
  | cons x xs ih =>
    rw [sortLe]
    exact (insertLe_perm le x (sortLe le xs)).trans (ih.cons x)

theorem insertLe_pairwise {α : Type} (le : α → α → Bool)
    (htot : ∀ a b, le a b = true ∨ le b a = true)
    (htrans : ∀ a b c, le a b = true → le b c = true → le a c = true)
    (x : α) : ∀ {l : List α}, List.Pairwise (fun a b => le a b = true) l →
      List.Pairwise (fun a b => le a b = true) (insertLe le x l) := by
  intro l hl
  induction l with
  | nil => simp [insertLe]
  | cons y ys ih =>
    rw [insertLe]
    rw [List.pairwise_cons] at hl
    by_cases h : le x y
    · rw [if_pos h]
      rw [List.pairwise_cons]
      constructor
      · intro z hz
        rcases List.mem_cons.mp hz with rfl | hz2
        · exact h
        · exact htrans x y z h (hl.1 z hz2)
      · exact List.pairwise_cons.mpr hl
    · rw [if_neg h]
      rw [List.pairwise_cons]
      constructor
      · intro z hz
        have hz2 := (insertLe_perm le x ys).mem_iff.mp hz
        rcases List.mem_cons.mp hz2 with rfl | hz3
        · rcases htot z y with h1 | h1
          · exact absurd h1 (by simpa using h)
          · exact h1
        · exact hl.1 z hz3
      · exact ih hl.2

theorem sortLe_pairwise {α : Type} (le : α → α → Bool)
    (htot : ∀ a b, le a b = true ∨ le b a = true)
    (htrans : ∀ a b c, le a b = true → le b c = true → le a c = true) :
    ∀ l : List α, List.Pairwise (fun a b => le a b = true) (sortLe le l) := by
  intro l
  induction l with
  | nil => simp [sortLe]
  | cons x xs ih =>
    rw [sortLe]
    exact insertLe_pairwise le htot htrans x ih

/-! ### Numeric ordering passes (src/app.js:288-316 and src/app.js:461-507) -/

/-- Sort record built per item by `sortImagesByNumber` / `sortFilesByNameWithNumber`:
display name, its lowercase form, the extracted numeric key, original position. -/
structure MetaN where
  name : List Char
  lower : List Char
  numkey : Option ℕ
  index : ℕ
deriving DecidableEq

/-- The three-way comparison shared by both numeric comparators once numbers are
equal or absent: lowercase name by JS string order, then original index. -/
def tailCmp (a b : MetaN) : ℤ :=
  if strLt a.lower b.lower then -1
  else if strLt b.lower a.lower then 1
  else (a.index : ℤ) - b.index

/-- The comparator of src/app.js lines 300-314 (identical at lines 489-503):
numbered items first, ascending number, then lowercase name, then index. -/
def cmpNumber (a b : MetaN) : ℤ :=
  match a.numkey, b.numkey with
  | some _, none => -1
  | none, some _ => 1
  | some m, some n => if m ≠ n then (m : ℤ) - n else tailCmp a b
  | none, none => tailCmp a b

def leNum (a b : MetaN) : Bool := decide (cmpNumber a b ≤ 0)

/-- Builds the `meta` array of `sortImagesByNumber` / the `arr` array of
`sortFilesByNameWithNumber` from the item names in input order. -/
def mkMetaN (titles : List (List Char)) : List MetaN :=
  titles.enum.map (fun p =>
    { name := p.2, lower := p.2.map Char.toLower,
      numkey := extractTrailingNumber p.2, index := p.1 })

/-- The ordering pass of `sortImagesByNumber` (src/app.js:288-316), applied after
the empty-title pre-step has ensured a title for every item. -/
def sortImagesByNumberPass (titles : List (List Char)) : List (List Char) :=
  (sortLe leNum (mkMetaN titles)).map MetaN.name

/-- One swap `[arr[i], arr[j]] = [arr[j], arr[i]]` on a list. -/
def listSwap {α : Type} (l : List α) (i j : ℕ) : List α :=
  match l.get? i, l.get? j with
  | some a, some b => (l.set i b).set j a
  | _, _ => l

/-- The Fisher-Yates loop of src/app.js lines 484-487, with `draws i` standing
for `Math.floor(Math.random() * (i + 1))` at loop index `i`. -/
def fyShuffleGo {α : Type} (draws : ℕ → ℕ) : ℕ → List α → List α
  | 0, acc => acc
  | i + 1, acc => fyShuffleGo draws i (listSwap acc (i + 1) (draws (i + 1)))

def fyShuffle {α : Type} (draws : ℕ → ℕ) (l : List α) : List α :=
  fyShuffleGo draws (l.length - 1) l

/-- Embeds `sortFilesByNameWithNumber` (src/app.js:461-507): when no file name
yields a number the array is randomly shuffled, otherwise it is sorted with the
numeric comparator. -/
def sortFilesByNameWithNumber (names : List (List Char)) (draws : ℕ → ℕ) :
    List (List Char) :=
  let arr := mkMetaN names
  if arr.any (fun m => m.numkey.isSome) then (sortLe leNum arr).map MetaN.name
  else (fyShuffle draws arr).map MetaN.name

/-- The tie-break order stated by claim C2: case-insensitive lexicographic by
name, then original input order. -/
def tailOrd (a b : MetaN) : Prop :=
  strLt a.lower b.lower = true ∨ (a.lower = b.lower ∧ a.index ≤ b.index)

/-- The full ordering stated by claim C2: numeric-keyed items first, ascending by
number, ties by lowercase name then input order; non-keyed items by lowercase
name then input order. -/
def claimNumOrd (a b : MetaN) : Prop :=
  match a.numkey, b.numkey with
  | some _, none => True
  | none, some _ => False
  | some m, some n => m < n ∨ (m = n ∧ tailOrd a b)
  | none, none => tailOrd a b

theorem tailCmp_flip (a b : MetaN) : tailCmp b a = -tailCmp a b := by
  unfold tailCmp
  by_cases s1 : strLt a.lower b.lower
  · rw [if_neg (by rw [strLt_asymm s1]; exact Bool.noConfusion), if_pos s1, if_pos s1]
    rfl
  · by_cases s2 : strLt b.lower a.lower
    · rw [if_pos s2, if_neg s1, if_pos s2]
    · rw [if_neg s2, if_neg s1, if_neg s1, if_neg s2]
      ring

theorem tailCmp_le_trans {a b c : MetaN} (h1 : tailCmp a b ≤ 0) (h2 : tailCmp b c ≤ 0) :
    tailCmp a c ≤ 0 := by
  unfold tailCmp at h1 h2 ⊢
  by_cases s1 : strLt a.lower b.lower
  · by_cases s2 : strLt b.lower c.lower
    · rw [if_pos (strLt_trans s1 s2)]
      omega
    · rw [if_neg s2] at h2
      by_cases s3 : strLt c.lower b.lower
      · rw [if_pos s3] at h2; omega
      · have heq : b.lower = c.lower :=
          strLt_eq_of_not (by simpa using s2) (by simpa using s3)
        rw [if_pos (by rw [← heq]; exact (by simpa using s1))]
        omega
  · rw [if_neg s1] at h1
    by_cases s4 : strLt b.lower a.lower
    · rw [if_pos s4] at h1; omega
    · have heq : a.lower = b.lower :=
        strLt_eq_of_not (by simpa using s1) (by simpa using s4)
      rw [if_neg s4] at h1
      by_cases s2 : strLt b.lower c.lower
      · rw [if_pos (by rw [heq]; exact (by simpa using s2))]
        omega
      · rw [if_neg s2] at h2
        by_cases s3 : strLt c.lower b.lower
        · rw [if_pos s3] at h2; omega
        · have heq2 : b.lower = c.lower :=
            strLt_eq_of_not (by simpa using s2) (by simpa using s3)
          rw [if_neg (by rw [heq, heq2]; simp [strLt_irrefl]),
            if_neg (by rw [heq, heq2]; simp [strLt_irrefl])]
          omega

theorem tailCmp_le_ord {a b : MetaN} (h : tailCmp a b ≤ 0) : tailOrd a b := by
  unfold tailCmp at h
  unfold tailOrd
  by_cases s1 : strLt a.lower b.lower
  · exact Or.inl s1
  · rw [if_neg s1] at h
    by_cases s2 : strLt b.lower a.lower
    · rw [if_pos s2] at h; omega
    · rw [if_neg s2] at h
      refine Or.inr ⟨strLt_eq_of_not (by simpa using s1) (by simpa using s2), by omega⟩

theorem cmpNumber_flip (a b : MetaN) : cmpNumber b a = -cmpNumber a b := by
  rcases ha : a.numkey with _ | m
  · rcases hb : b.numkey with _ | n
    · simp only [cmpNumber, ha, hb]
      exact tailCmp_flip a b
    · simp only [cmpNumber, ha, hb]
  · rcases hb : b.numkey with _ | n
    · simp only [cmpNumber, ha, hb]
      norm_num
    · simp only [cmpNumber, ha, hb]
      by_cases hmn : m = n
      · rw [if_neg (by omega), if_neg (by omega)]
        exact tailCmp_flip a b
      · rw [if_pos (by omega), if_pos (by omega)]
        ring

theorem cmpNumber_le_trans {a b c : MetaN}
    (h1 : cmpNumber a b ≤ 0) (h2 : cmpNumber b c ≤ 0) : cmpNumber a c ≤ 0 := by
  rcases ha : a.numkey with _ | m
  · rcases hb : b.numkey with _ | n
    · rcases hc : c.numkey with _ | p
      · simp only [cmpNumber, ha, hb, hc] at h1 h2 ⊢
        exact tailCmp_le_trans h1 h2
      · simp only [cmpNumber, ha, hb, hc] at h1 h2 ⊢
        exact h2
    · simp only [cmpNumber, ha, hb] at h1
      exact absurd h1 (by norm_num)
  · rcases hb : b.numkey with _ | n
    · rcases hc : c.numkey with _ | p
      · simp only [cmpNumber, ha, hc]
        norm_num
      · simp only [cmpNumber, hb, hc] at h2
        exact absurd h2 (by norm_num)
    · rcases hc : c.numkey with _ | p
      · simp only [cmpNumber, ha, hc]
        norm_num
      · simp only [cmpNumber, ha, hb, hc] at h1 h2 ⊢
        by_cases hmn : m = n
        · rw [if_neg (by omega)] at h1
          by_cases hnp : n = p
          · rw [if_neg (by omega)] at h2
            rw [if_neg (by omega : ¬m ≠ p)]
            exact tailCmp_le_trans h1 h2
          · rw [if_pos (by omega)] at h2
            rw [if_pos (by omega : m ≠ p), hmn]
            omega
        · rw [if_pos (by omega)] at h1
          by_cases hnp : n = p
          · rw [if_pos (by omega : m ≠ p), ← hnp]
            omega
          · rw [if_pos (by omega)] at h2
            by_cases hmp : m = p
            · omega
            · rw [if_pos (by omega)]
              omega

theorem leNum_total (a b : MetaN) : leNum a b = true ∨ leNum b a = true := by
  unfold leNum
  have hf := cmpNumber_flip a b
  by_cases h : cmpNumber a b ≤ 0
  · exact Or.inl (by simpa using h)
  · exact Or.inr (by rw [decide_eq_true_iff, hf]; omega)

theorem leNum_trans (a b c : MetaN)
    (h1 : leNum a b = true) (h2 : leNum b c = true) : leNum a c = true := by
  unfold leNum at h1 h2 ⊢
  rw [decide_eq_true_iff] at h1 h2 ⊢
  exact cmpNumber_le_trans h1 h2

theorem leNum_ord {a b : MetaN} (h : leNum a b = true) : claimNumOrd a b := by
  unfold leNum at h
  rw [decide_eq_true_iff] at h
  rcases ha : a.numkey with _ | m
  · rcases hb : b.numkey with _ | n
    · simp only [cmpNumber, ha, hb] at h
      simp only [claimNumOrd, ha, hb]
      exact tailCmp_le_ord h
    · simp only [cmpNumber, ha, hb] at h
      exact absurd h (by norm_num)
  · rcases hb : b.numkey with _ | n
    · simp only [claimNumOrd, ha, hb]
    · simp only [cmpNumber, ha, hb] at h
      simp only [claimNumOrd, ha, hb]
      by_cases hmn : m = n
      · rw [if_neg (by omega)] at h
        exact Or.inr ⟨hmn, tailCmp_le_ord h⟩
      · rw [if_pos (by omega)] at h
        left
        omega
/-! ### Claim C2 -/

/-- C2 counterexample: when no import file name contains a digit,
`sortFilesByNameWithNumber` randomly shuffles the files instead of sorting them
case-insensitively.  With names "b", "a" and the random draw `j = 1` the output
keeps "b" before "a", although the claim demands the lexicographic order
"a", "b" (the third conjunct shows "b" is neither below nor equal to "a"). -/
theorem c2_counterexample :
    sortFilesByNameWithNumber [['b'], ['a']] (fun _ => 1) = [['b'], ['a']] ∧
    strLt (['b'].map Char.toLower) (['a'].map Char.toLower) = false ∧
    (['b'].map Char.toLower) ≠ (['a'].map Char.toLower) := by
  decide

/-- C2 (amended): in both numeric ordering passes the output is a permutation of
the input ordered as the claim states — numeric-keyed items first, ascending by
number, ties by case-insensitive name then input order, non-keyed items by
case-insensitive name then input order — with the proviso that the import-file
pass behaves this way only when at least one file name yields a numeric key;
otherwise that pass randomly shuffles the files. -/
theorem c2_numeric_ordering (titles names : List (List Char)) (draws : ℕ → ℕ)
    (hnum : (mkMetaN names).any (fun m => m.numkey.isSome) = true) :
    List.Perm (sortLe leNum (mkMetaN titles)) (mkMetaN titles) ∧
    List.Pairwise claimNumOrd (sortLe leNum (mkMetaN titles)) ∧
    sortImagesByNumberPass titles = (sortLe leNum (mkMetaN titles)).map MetaN.name ∧
    sortFilesByNameWithNumber names draws =
      (sortLe leNum (mkMetaN names)).map MetaN.name ∧
    List.Perm (sortLe leNum (mkMetaN names)) (mkMetaN names) ∧
    List.Pairwise claimNumOrd (sortLe leNum (mkMetaN names)) := by
  refine ⟨sortLe_perm leNum _, ?_, rfl, ?_, sortLe_perm leNum _, ?_⟩
  · exact (sortLe_pairwise leNum leNum_total leNum_trans _).imp leNum_ord
  · unfold sortFilesByNameWithNumber
    rw [if_pos hnum]
  · exact (sortLe_pairwise leNum leNum_total leNum_trans _).imp leNum_ord

/-- C2 witness: on files "b.png", "a2.png", "a10.png" the amended theorem
evaluates to the claimed order: numbered files ascending (2 before 10), then the
unnumbered file. -/
theorem c2_numeric_ordering_witness :
    sortFilesByNameWithNumber
      [['b', '.', 'p', 'n', 'g'], ['a', '1', '0', '.', 'p', 'n', 'g'],
        ['a', '2', '.', 'p', 'n', 'g']] (fun _ => 0) =
      [['a', '2', '.', 'p', 'n', 'g'], ['a', '1', '0', '.', 'p', 'n', 'g'],
        ['b', '.', 'p', 'n', 'g']] := by
  have h := c2_numeric_ordering []
    [['b', '.', 'p', 'n', 'g'], ['a', '1', '0', '.', 'p', 'n', 'g'],
      ['a', '2', '.', 'p', 'n', 'g']] (fun _ => 0) (by decide)
  rw [h.2.2.2.1]
  decide

/-! ### Color ordering (src/app.js:321-386) and geometry fallback (src/app.js:52-60) -/

/-- The saturation threshold `SAT_GROUP_THRESHOLD` (src/app.js:9). -/
def SAT_GROUP_THRESHOLD : ℕ := 35

/-- A board image widget as consumed by the sorting pass. -/
structure Wid where
  x : ℚ
  y : ℚ
  title : List Char
deriving DecidableEq

/-- The prefix match `title.match(/^C(\\d\x7b2\x7d)\\/(\\d\x7b3\x7d)\\s+/)` of
src/app.js:324, returning `(satCode, briCode)` parsed in base 10. -/
def parseColorCode : List Char → Option (ℕ × ℕ)
  | 'C' :: a :: b :: '/' :: c :: d :: e :: f :: _ =>
    if a.isDigit && b.isDigit && c.isDigit && d.isDigit && e.isDigit && isJsSpace f then
      some (10 * digitVal a + digitVal b,
        100 * digitVal c + 10 * digitVal d + digitVal e)
    else none
  | _ => none

/-- Group assignment of src/app.js:340: gray-like group 0 iff the saturation code
is at most the threshold. -/
def groupOf (sat : ℕ) : ℕ := if sat ≤ SAT_GROUP_THRESHOLD then 0 else 1

/-- Sort record of `sortImagesByColor`: widget, input position, parsed code. -/
structure MetaC where
  wid : Wid
  index : ℕ
  code : Option (ℕ × ℕ)
deriving DecidableEq

/-- Comparator of src/app.js lines 373-383: coded items first; among coded items
group, then brightness code, then saturation code, then input index. -/
def cmpColor (a b : MetaC) : ℤ :=
  match a.code, b.code with
  | some (sa, ba), some (sb, bb) =>
    if groupOf sa ≠ groupOf sb then (groupOf sa : ℤ) - groupOf sb
    else if ba ≠ bb then (ba : ℤ) - bb
    else if sa ≠ sb then (sa : ℤ) - sb
    else (a.index : ℤ) - b.index
  | some _, none => -1
  | none, some _ => 1
  | none, none => (a.index : ℤ) - b.index

def leColor (a b : MetaC) : Bool := decide (cmpColor a b ≤ 0)

def mkMetaC (items : List Wid) : List MetaC :=
  items.enum.map (fun p => { wid := p.2, index := p.1, code := parseColorCode p.2.title })

/-- Comparator of `sortByGeometry` (src/app.js:52-60): y ascending then x
ascending, 0 on full ties. -/
def cmpGeo (a b : Wid) : ℤ :=
  if a.y < b.y then -1
  else if b.y < a.y then 1
  else if a.x < b.x then -1
  else if b.x < a.x then 1
  else 0

/-- `Array.prototype.sort` is stable, so ties of the geometry comparator keep the
original input order: the sort is modelled on index-value pairs, with the index
breaking comparator ties. -/
def leGeoIdx (p q : ℕ × Wid) : Bool :=
  decide (cmpGeo p.2 q.2 < 0) || (decide (cmpGeo p.2 q.2 = 0) && decide (p.1 ≤ q.1))

/-- Embeds `sortByGeometry` (src/app.js:52-60). -/
def sortByGeometry (items : List Wid) : List Wid :=
  (sortLe leGeoIdx items.enum).map Prod.snd

/-- Embeds `sortImagesByColor` (src/app.js:321-386): falls back to the geometry
sort when no title parses, otherwise sorts the records with `cmpColor`. -/
def sortImagesByColor (items : List Wid) : List Wid :=
  let meta := mkMetaC items
  if meta.any (fun m => m.code.isSome) then (sortLe leColor meta).map MetaC.wid
  else sortByGeometry items

/-- The ordering stated by claim C6 for the coded case. -/
def claimColorOrd (a b : MetaC) : Prop :=
  match a.code, b.code with
  | some (sa, ba), some (sb, bb) =>
    groupOf sa < groupOf sb ∨
      (groupOf sa = groupOf sb ∧
        (ba < bb ∨ (ba = bb ∧ (sa < sb ∨ (sa = sb ∧ a.index ≤ b.index)))))
  | some _, none => True
  | none, some _ => False
  | none, none => a.index ≤ b.index

/-- Pure geometry reading order: y ascending, then x ascending, then input
position. -/
def geoOrd (p q : ℕ × Wid) : Prop :=
  p.2.y < q.2.y ∨ (p.2.y = q.2.y ∧ (p.2.x < q.2.x ∨ (p.2.x = q.2.x ∧ p.1 ≤ q.1)))

theorem cmpColor_flip (a b : MetaC) : cmpColor b a = -cmpColor a b := by
  rcases ha : a.code with _ | ⟨sa, ba⟩
  · rcases hb : b.code with _ | ⟨sb, bb⟩
    · simp only [cmpColor, ha, hb]
      ring
    · simp only [cmpColor, ha, hb]
  · rcases hb : b.code with _ | ⟨sb, bb⟩
    · simp only [cmpColor, ha, hb]
      norm_num
    · simp only [cmpColor, ha, hb]
      split_ifs <;> omega

theorem cmpColor_le_trans {a b c : MetaC}
    (h1 : cmpColor a b ≤ 0) (h2 : cmpColor b c ≤ 0) : cmpColor a c ≤ 0 := by
  rcases ha : a.code with _ | ⟨sa, ba⟩ <;>
    rcases hb : b.code with _ | ⟨sb, bb⟩ <;>
    rcases hc : c.code with _ | ⟨sc, bc2⟩ <;>
    simp only [cmpColor, ha, hb, hc] at h1 h2 ⊢ <;>
    first
    | (split_ifs at h1 h2 ⊢ <;> omega)
    | omega

theorem leColor_total (a b : MetaC) : leColor a b = true ∨ leColor b a = true := by
  unfold leColor
  have hf := cmpColor_flip a b
  by_cases h : cmpColor a b ≤ 0
  · exact Or.inl (by simpa using h)
  · exact Or.inr (by rw [decide_eq_true_iff, hf]; omega)

theorem leColor_trans (a b c : MetaC)
    (h1 : leColor a b = true) (h2 : leColor b c = true) : leColor a c = true := by
  unfold leColor at h1 h2 ⊢
  rw [decide_eq_true_iff] at h1 h2 ⊢
  exact cmpColor_le_trans h1 h2

theorem leColor_ord {a b : MetaC} (h : leColor a b = true) : claimColorOrd a b := by
  unfold leColor at h
  rw [decide_eq_true_iff] at h
  rcases ha : a.code with _ | ⟨sa, ba⟩ <;>
    rcases hb : b.code with _ | ⟨sb, bb⟩ <;>
    simp only [cmpColor, ha, hb] at h <;> simp only [claimColorOrd, ha, hb] <;>
    first
    | (split_ifs at h <;> omega)
    | omega

theorem cmpGeo_flip (a b : Wid) : cmpGeo b a = -cmpGeo a b := by
  unfold cmpGeo
  split_ifs <;> linarith

theorem cmpGeo_lt_iff (a b : Wid) :
    cmpGeo a b < 0 ↔ (a.y < b.y ∨ (a.y = b.y ∧ a.x < b.x)) := by
  unfold cmpGeo
  split_ifs with h1 h2 h3 h4
  · simp only [h1, true_or, iff_true]
    norm_num
  · constructor
    · intro h; norm_num at h
    · intro h
      exfalso
      rcases h with h | ⟨h5, h6⟩ <;> linarith
  · have hy : a.y = b.y := le_antisymm (not_lt.mp h2) (not_lt.mp h1)
    simp only [hy, h3, lt_irrefl, false_or, true_and, and_true, iff_true]
    norm_num
  · constructor
    · intro h; norm_num at h
    · intro h
      exfalso
      rcases h with h | ⟨h5, h6⟩ <;> linarith
  · constructor
    · intro h; norm_num at h
    · intro h
      exfalso
      rcases h with h | ⟨h5, h6⟩
      · exact h1 h
      · exact h3 h6

theorem cmpGeo_eq0_iff (a b : Wid) : cmpGeo a b = 0 ↔ (a.y = b.y ∧ a.x = b.x) := by
  unfold cmpGeo
  split_ifs with h1 h2 h3 h4
  · constructor
    · intro h; norm_num at h
    · rintro ⟨h5, h6⟩; exfalso; linarith
  · constructor
    · intro h; norm_num at h
    · rintro ⟨h5, h6⟩; exfalso; linarith
  · constructor
    · intro h; norm_num at h
    · rintro ⟨h5, h6⟩; exfalso; linarith
  · constructor
    · intro h; norm_num at h
    · rintro ⟨h5, h6⟩; exfalso; linarith
  · have hy : a.y = b.y := le_antisymm (not_lt.mp h2) (not_lt.mp h1)
    have hx : a.x = b.x := le_antisymm (not_lt.mp h4) (not_lt.mp h3)
    simp [hy, hx]

theorem leGeoIdx_total (p q : ℕ × Wid) : leGeoIdx p q = true ∨ leGeoIdx q p = true := by
  unfold leGeoIdx
  simp only [Bool.or_eq_true, Bool.and_eq_true, decide_eq_true_iff]
  have hf := cmpGeo_flip p.2 q.2
  by_cases h : cmpGeo p.2 q.2 < 0
  · exact Or.inl (Or.inl h)
  · by_cases h0 : cmpGeo p.2 q.2 = 0
    · by_cases hi : p.1 ≤ q.1
      · exact Or.inl (Or.inr ⟨h0, hi⟩)
      · refine Or.inr (Or.inr ⟨by rw [hf, h0]; ring, by omega⟩)
    · refine Or.inr (Or.inl ?_)
      rw [hf]
      omega

theorem leGeoIdx_trans (p q r : ℕ × Wid)
    (h1 : leGeoIdx p q = true) (h2 : leGeoIdx q r = true) : leGeoIdx p r = true := by
  unfold leGeoIdx at h1 h2 ⊢
  simp only [Bool.or_eq_true, Bool.and_eq_true, decide_eq_true_iff] at h1 h2 ⊢
  rcases h1 with h1 | ⟨h1, hi1⟩
  · rcases h2 with h2 | ⟨h2, hi2⟩
    · left
      rw [cmpGeo_lt_iff] at h1 h2 ⊢
      rcases h1 with h1 | ⟨h1, h1x⟩ <;> rcases h2 with h2 | ⟨h2, h2x⟩
      · exact Or.inl (by linarith)
      · exact Or.inl (by linarith)
      · exact Or.inl (by linarith)
      · exact Or.inr ⟨by linarith, by linarith⟩
    · left
      rw [cmpGeo_eq0_iff] at h2
      rw [cmpGeo_lt_iff] at h1 ⊢
      rcases h1 with h1 | ⟨h1, h1x⟩
      · exact Or.inl (by rw [← h2.1]; exact h1)
      · exact Or.inr ⟨by rw [← h2.1]; exact h1, by rw [← h2.2]; exact h1x⟩
  · rcases h2 with h2 | ⟨h2, hi2⟩
    · left
      rw [cmpGeo_eq0_iff] at h1
      rw [cmpGeo_lt_iff] at h2 ⊢
      rcases h2 with h2 | ⟨h2, h2x⟩
      · exact Or.inl (by rw [h1.1]; exact h2)
      · exact Or.inr ⟨by rw [h1.1]; exact h2, by rw [h1.2]; exact h2x⟩
    · right
      rw [cmpGeo_eq0_iff] at h1 h2
      refine ⟨?_, le_trans hi1 hi2⟩
      rw [cmpGeo_eq0_iff]
      exact ⟨h1.1.trans h2.1, h1.2.trans h2.2⟩

theorem leGeoIdx_ord {p q : ℕ × Wid} (h : leGeoIdx p q = true) : geoOrd p q := by
  unfold leGeoIdx at h
  simp only [Bool.or_eq_true, Bool.and_eq_true, decide_eq_true_iff] at h
  unfold geoOrd
  rcases h with h | ⟨h, hi⟩
  · rw [cmpGeo_lt_iff] at h
    rcases h with h | ⟨h, hx⟩
    · exact Or.inl h
    · exact Or.inr ⟨h, Or.inl hx⟩
  · rw [cmpGeo_eq0_iff] at h
    exact Or.inr ⟨h.1, Or.inr ⟨h.2, hi⟩⟩

/-! ### Claim C6 -/

/-- C6: when no title parses as a color code, `sortImagesByColor` returns the
pure geometry order (y ascending, then x, then input order); otherwise it sorts
coded items before non-coded ones, coded items by group (gray group 0 first,
group 0 exactly when the saturation code is at most the threshold), then
brightness code, then saturation code, then input order. -/
theorem c6_orderByColor (items : List Wid) :
    ((mkMetaC items).any (fun m => m.code.isSome) = false →
      sortImagesByColor items = sortByGeometry items ∧
      List.Perm (sortLe leGeoIdx items.enum) items.enum ∧
      List.Pairwise geoOrd (sortLe leGeoIdx items.enum)) ∧
    ((mkMetaC items).any (fun m => m.code.isSome) = true →
      sortImagesByColor items = (sortLe leColor (mkMetaC items)).map MetaC.wid ∧
      List.Perm (sortLe leColor (mkMetaC items)) (mkMetaC items) ∧
      List.Pairwise claimColorOrd (sortLe leColor (mkMetaC items))) := by
  constructor
  · intro hnone
    refine ⟨?_, sortLe_perm _ _, ?_⟩
    · unfold sortImagesByColor
      rw [if_neg (by rw [hnone]; exact Bool.noConfusion)]
    · exact ((sortLe_pairwise leGeoIdx (fun a b => leGeoIdx_total a b)
        (fun a b c => leGeoIdx_trans a b c) _).imp leGeoIdx_ord)
  · intro hsome
    refine ⟨?_, sortLe_perm _ _, ?_⟩
    · unfold sortImagesByColor
      rw [if_pos hsome]
    · exact ((sortLe_pairwise leColor leColor_total leColor_trans _).imp leColor_ord)

/-- C6 witness: three widgets, two of them color-coded.  The coded ones come
first ordered by group then brightness (the gray-coded C10/200 widget before the
chromatic C70/100 one), and the uncoded widget last. -/
theorem c6_orderByColor_witness :
    sortImagesByColor
      [⟨0, 0, ['p', 'l', 'a', 'i', 'n']⟩,
       ⟨1, 0, ['C', '7', '0', '/', '1', '0', '0', ' ', 'x']⟩,
       ⟨2, 0, ['C', '1', '0', '/', '2', '0', '0', ' ', 'y']⟩] =
      [⟨2, 0, ['C', '1', '0', '/', '2', '0', '0', ' ', 'y']⟩,
       ⟨1, 0, ['C', '7', '0', '/', '1', '0', '0', ' ', 'x']⟩,
       ⟨0, 0, ['p', 'l', 'a', 'i', 'n']⟩] := by
  have h := (c6_orderByColor
    [⟨0, 0, ['p', 'l', 'a', 'i', 'n']⟩,
     ⟨1, 0, ['C', '7', '0', '/', '1', '0', '0', ' ', 'x']⟩,
     ⟨2, 0, ['C', '1', '0', '/', '2', '0', '0', ' ', 'y']⟩]).2 (by decide)
  rw [h.1]
  decide

/-! ### Claim C7: color-code round trip -/

/-- Decimal digits of `n`, as produced by JS `String(n)`. -/
def natDigits (n : ℕ) : List Char :=
  if h : n < 10 then [Char.ofNat (48 + n)]
  else natDigits (n / 10) ++ [Char.ofNat (48 + n % 10)]
termination_by n
decreasing_by exact Nat.div_lt_self (by omega) (by omega)

/-- `String(n).padStart(2, "0")` (src/app.js:977). -/
def pad2 (n : ℕ) : List Char :=
  let s := natDigits n
  if s.length < 2 then List.replicate (2 - s.length) '0' ++ s else s

/-- `String(n).padStart(3, "0")` (src/app.js:978). -/
def pad3 (n : ℕ) : List Char :=
  let s := natDigits n
  if s.length < 3 then List.replicate (3 - s.length) '0' ++ s else s

/-- The title built at src/app.js:1012: `C` + padded saturation code + `/` +
padded brightness code + space + original name. -/
def encodeColorTitle (sat bri : ℕ) (name : List Char) : List Char :=
  'C' :: (pad2 sat ++ '/' :: (pad3 bri ++ ' ' :: name))

theorem isDigit_ofNat {k : ℕ} (hk : k < 10) : (Char.ofNat (48 + k)).isDigit = true := by
  interval_cases k <;> decide

theorem digitVal_ofNat {k : ℕ} (hk : k < 10) : digitVal (Char.ofNat (48 + k)) = k := by
  interval_cases k <;> decide

theorem pad2_eq {n : ℕ} (hn : n ≤ 99) :
    pad2 n = [Char.ofNat (48 + n / 10), Char.ofNat (48 + n % 10)] := by
  by_cases h : n < 10
  · rw [pad2, natDigits, dif_pos h]
    have h10 : n / 10 = 0 := by omega
    have hm : n % 10 = n := by omega
    rw [h10, hm]
    rfl
  · rw [pad2, natDigits, dif_neg h, natDigits, dif_pos (by omega : n / 10 < 10)]
    rfl

theorem pad3_eq {n : ℕ} (hn : n ≤ 999) :
    pad3 n = [Char.ofNat (48 + n / 100), Char.ofNat (48 + n / 10 % 10),
      Char.ofNat (48 + n % 10)] := by
  by_cases h : n < 10
  · rw [pad3, natDigits, dif_pos h]
    have h100 : n / 100 = 0 := by omega
    have h10 : n / 10 % 10 = 0 := by omega
    have hm : n % 10 = n := by omega
    rw [h100, h10, hm]
    rfl
  · by_cases h2 : n < 100
    · rw [pad3, natDigits, dif_neg h, natDigits, dif_pos (by omega : n / 10 < 10)]
      have h100 : n / 100 = 0 := by omega
      have h10 : n / 10 % 10 = n / 10 := by omega
      rw [h100, h10]
      rfl
    · rw [pad3, natDigits, dif_neg h, natDigits, dif_neg (by omega : ¬n / 10 < 10),
        natDigits, dif_pos (by omega : n / 10 / 10 < 10)]
      have hdd : n / 10 / 10 = n / 100 := by omega
      rw [hdd]
      rfl

/-- C7: encoding any saturation code 0..99 and brightness code 0..999 into a
`C<2-digit>/<3-digit> <name>` title and parsing it back with the color-sort
prefix matcher recovers exactly the same pair of codes. -/
theorem c7_color_code_round_trip (sat bri : ℕ) (hs : sat ≤ 99) (hb : bri ≤ 999)
    (name : List Char) :
    parseColorCode (encodeColorTitle sat bri name) = some (sat, bri) := by
  rw [encodeColorTitle, pad2_eq hs, pad3_eq hb]
  show parseColorCode
    ('C' :: Char.ofNat (48 + sat / 10) :: Char.ofNat (48 + sat % 10) :: '/' ::
      Char.ofNat (48 + bri / 100) :: Char.ofNat (48 + bri / 10 % 10) ::
      Char.ofNat (48 + bri % 10) :: ' ' :: name) = some (sat, bri)
  rw [parseColorCode]
  rw [if_pos (by
    rw [isDigit_ofNat (by omega : sat / 10 < 10), isDigit_ofNat (by omega : sat % 10 < 10),
      isDigit_ofNat (by omega : bri / 100 < 10), isDigit_ofNat (by omega : bri / 10 % 10 < 10),
      isDigit_ofNat (by omega : bri % 10 < 10)]
    rfl)]
  rw [digitVal_ofNat (by omega : sat / 10 < 10), digitVal_ofNat (by omega : sat % 10 < 10),
    digitVal_ofNat (by omega : bri / 100 < 10), digitVal_ofNat (by omega : bri / 10 % 10 < 10),
    digitVal_ofNat (by omega : bri % 10 < 10)]
  have h1 : 10 * (sat / 10) + sat % 10 = sat := by omega
  have h2 : 100 * (bri / 100) + 10 * (bri / 10 % 10) + bri % 10 = bri := by omega
  rw [h1, h2]

/-- C7 witness: the round trip evaluated at saturation 7, brightness 42. -/
theorem c7_color_code_round_trip_witness :
    7 ≤ 99 ∧ 42 ≤ 999 ∧
    parseColorCode (encodeColorTitle 7 42 ['i', 'm', 'g']) = some (7, 42) :=
  ⟨by decide, by decide, c7_color_code_round_trip 7 42 (by decide) (by decide) ['i', 'm', 'g']⟩

/-! ### Grid alignment (src/app.js:149-270, uniform variant src/unnamed/part_003:46-145) -/

/-- A board image as mutated by `alignImagesInGivenOrder`. -/
structure Img where
  x : ℚ
  y : ℚ
  width : ℚ
  height : ℚ
  title : List Char
deriving DecidableEq

inductive SizeMode
  | none
  | width
  | height
deriving DecidableEq

inductive Corner
  | topLeft
  | topRight
  | bottomLeft
  | bottomRight
deriving DecidableEq

structure AlignConfig where
  imagesPerRow : ℕ
  horizontalGap : ℚ
  verticalGap : ℚ
  sizeMode : SizeMode
  startCorner : Corner

/-- `Math.min(...)` over a non-empty spread (call sites guarantee non-emptiness). -/
def minQ : List ℚ → ℚ
  | [] => 0
  | x :: xs => xs.foldl min x

/-- `Math.max(...)` over a non-empty spread. -/
def maxQ : List ℚ → ℚ
  | [] => 0
  | x :: xs => xs.foldl max x

/-- The size-normalisation step (src/app.js:160-168): mode `width` sets every
width to the minimum width, mode `height` symmetrically; `none` is the identity. -/
def applySizeMode (images : List Img) (mode : SizeMode) : List Img :=
  match mode with
  | .none => images
  | .width =>
    let targetWidth := minQ (images.map (·.width))
    images.map (fun img => { img with width := targetWidth })
  | .height =>
    let targetHeight := minQ (images.map (·.height))
    images.map (fun img => { img with height := targetHeight })

/-- The loop of src/app.js:177-185 filling `rowHeights` and `rowWidths`. -/
def buildRows (images : List Img) (cols : ℕ) (hGap : ℚ) (rows : ℕ) :
    List ℚ × List ℚ :=
  images.enum.foldl
    (fun (acc : List ℚ × List ℚ) p =>
      let r := p.1 / cols
      let img := p.2
      let rh := if img.height > acc.1.getD r 0 then acc.1.set r img.height else acc.1
      let cur := acc.2.getD r 0
      let cur2 := if cur > 0 then cur + hGap else cur
      (rh, acc.2.set r (cur2 + img.width)))
    (List.replicate rows 0, List.replicate rows 0)

/-- The prefix sums of src/app.js:192-195 (`rowTop`). -/
def rowTopsAux (vGap : ℚ) : List ℚ → ℚ → List ℚ
  | [], _ => []
  | h :: t, cur => cur :: rowTopsAux vGap t (cur + h + vGap)

def rowTops (rowHeights : List ℚ) (vGap : ℚ) : List ℚ :=
  rowTopsAux vGap rowHeights 0

/-- One iteration of the loop of src/app.js:201-212. -/
def buildBaseStep (cols : ℕ) (hGap : ℚ) (rowHeights rowTop : List ℚ)
    (acc : List (ℚ × ℚ) × List ℚ) (p : ℕ × Img) : List (ℚ × ℚ) × List ℚ :=
  let r := p.1 / cols
  let img := p.2
  let cursor := acc.2.getD r 0
  let centerY := rowTop.getD r 0 + rowHeights.getD r 0 / 2
  let centerX := cursor + img.width / 2
  (acc.1 ++ [(centerX, centerY)], acc.2.set r (cursor + img.width + hGap))

/-- The loop of src/app.js:201-212 computing base centers with a per-row cursor. -/
def buildBase (images : List Img) (cols rows : ℕ) (hGap : ℚ)
    (rowHeights rowTop : List ℚ) : List (ℚ × ℚ) :=
  (images.enum.foldl (buildBaseStep cols hGap rowHeights rowTop)
    ([], List.replicate rows 0)).1

/-- Bounding box of the current item positions (src/app.js:214-224). -/
structure Box where
  minLeft : ℚ
  minTop : ℚ
  maxRight : ℚ
  maxBottom : ℚ

def boundsOf (images : List Img) : Box :=
  { minLeft := minQ (images.map (fun i => i.x - i.width / 2))
    minTop := minQ (images.map (fun i => i.y - i.height / 2))
    maxRight := maxQ (images.map (fun i => i.x + i.width / 2))
    maxBottom := maxQ (images.map (fun i => i.y + i.height / 2)) }

/-- Embeds `alignImagesInGivenOrder` of src/app.js:149-270 (variable-cell row
packing with coordinate mirroring); mutation of the input widgets is modelled by
returning the updated list. -/
def alignImagesInGivenOrder (images : List Img) (cfg : AlignConfig) : List Img :=
  if images.isEmpty then images
  else
    let resized := applySizeMode images cfg.sizeMode
    let total := resized.length
    let cols := max 1 cfg.imagesPerRow
    let rows := (total + cols - 1) / cols
    let rw := buildRows resized cols cfg.horizontalGap rows
    let rowHeights := rw.1
    let rowWidths := rw.2
    let gridWidth := if rowWidths.length ≠ 0 then maxQ rowWidths else 0
    let gridHeight := rowHeights.foldl (· + ·) 0 + cfg.verticalGap * ((rows - 1 : ℕ) : ℚ)
    let rowTop := rowTops rowHeights cfg.verticalGap
    let base := buildBase resized cols rows cfg.horizontalGap rowHeights rowTop
    let bb := boundsOf resized
    let originLeft :=
      match cfg.startCorner with
      | .topLeft => bb.minLeft
      | .topRight => bb.maxRight - gridWidth
      | .bottomLeft => bb.minLeft
      | .bottomRight => bb.maxRight - gridWidth
    let originTop :=
      match cfg.startCorner with
      | .topLeft => bb.minTop
      | .topRight => bb.minTop
      | .bottomLeft => bb.maxBottom - gridHeight
      | .bottomRight => bb.maxBottom - gridHeight
    let flipX := cfg.startCorner = Corner.topRight ∨ cfg.startCorner = Corner.bottomRight
    let flipY := cfg.startCorner = Corner.bottomLeft ∨ cfg.startCorner = Corner.bottomRight
    List.zipWith
      (fun img (p : ℚ × ℚ) =>
        let x0 := if flipX then gridWidth - p.1 else p.1
        let y0 := if flipY then gridHeight - p.2 else p.2
        { img with x := originLeft + x0, y := originTop + y0 })
      resized base

/-- Embeds the uniform-cell `alignImagesInGivenOrder` of src/unnamed/part_003
lines 46-145: one cell size (the maxima), corner handled by mirroring the
row/column index. -/
def alignImagesUniform (images : List Img) (cfg : AlignConfig) : List Img :=
  if images.isEmpty then images
  else
    let resized := applySizeMode images cfg.sizeMode
    let total := resized.length
    let cols := max 1 cfg.imagesPerRow
    let rows := (total + cols - 1) / cols
    let maxWidth := maxQ (resized.map (·.width))
    let maxHeight := maxQ (resized.map (·.height))
    let bb := boundsOf resized
    let cellWidth := maxWidth + cfg.horizontalGap
    let cellHeight := maxHeight + cfg.verticalGap
    let gridWidth := (cols : ℚ) * maxWidth + ((cols - 1 : ℕ) : ℚ) * cfg.horizontalGap
    let gridHeight := (rows : ℚ) * maxHeight + ((rows - 1 : ℕ) : ℚ) * cfg.verticalGap
    let originTop :=
      match cfg.startCorner with
      | .topLeft => bb.minTop
      | .topRight => bb.minTop
      | .bottomLeft => bb.maxBottom - gridHeight
      | .bottomRight => bb.maxBottom - gridHeight
    let originLeft :=
      match cfg.startCorner with
      | .topLeft => bb.minLeft
      | .bottomLeft => bb.minLeft
      | .topRight => bb.maxRight - gridWidth
      | .bottomRight => bb.maxRight - gridWidth
    resized.enum.map (fun p =>
      let img := p.2
      let row0 := p.1 / cols
      let col0 := p.1 % cols
      let row :=
        match cfg.startCorner with
        | .topLeft => row0
        | .topRight => row0
        | .bottomLeft => rows - 1 - row0
        | .bottomRight => rows - 1 - row0
      let col :=
        match cfg.startCorner with
        | .topLeft => col0
        | .bottomLeft => col0
        | .topRight => cols - 1 - col0
        | .bottomRight => cols - 1 - col0
      let left := originLeft + (col : ℚ) * cellWidth
      let top := originTop + (row : ℚ) * cellHeight
      { img with x := left + img.width / 2, y := top + img.height / 2 })

/-! ### Claim C3: grid layout round trip -/

theorem c3rows (p0 p1 p2 p3 p4 p5 p6 q0 q1 q2 q3 q4 q5 q6 : ℚ) :
    buildRows [⟨p0,q0,100,100,[]⟩,⟨p1,q1,100,100,[]⟩,⟨p2,q2,100,100,[]⟩,
      ⟨p3,q3,100,100,[]⟩,⟨p4,q4,100,100,[]⟩,⟨p5,q5,100,100,[]⟩,⟨p6,q6,100,100,[]⟩]
      3 10 3 = ([100,100,100],[320,320,100]) := by
  norm_num [buildRows, List.enum, List.enumFrom, List.foldl, List.getD,
    List.get?, List.set]

theorem c3tops : rowTops [(100:ℚ),100,100] 10 = [0, 110, 220] := by
  norm_num [rowTops, rowTopsAux]

theorem c3base (p0 p1 p2 p3 p4 p5 p6 q0 q1 q2 q3 q4 q5 q6 : ℚ) :
    buildBase [⟨p0,q0,100,100,[]⟩,⟨p1,q1,100,100,[]⟩,⟨p2,q2,100,100,[]⟩,
      ⟨p3,q3,100,100,[]⟩,⟨p4,q4,100,100,[]⟩,⟨p5,q5,100,100,[]⟩,⟨p6,q6,100,100,[]⟩]
      3 3 10 [100,100,100] [0,110,220] =
      [(50,50),(160,50),(270,50),(50,160),(160,160),(270,160),(50,270)] := by
  norm_num [buildBase, buildBaseStep, List.enum, List.enumFrom, List.foldl, List.getD,
    List.get?, List.set]

theorem c3gw : maxQ [(320:ℚ),320,100] = 320 := by
  norm_num [maxQ, List.foldl]

theorem c3TL_eq (p0 p1 p2 p3 p4 p5 p6 q0 q1 q2 q3 q4 q5 q6 : ℚ) :
    alignImagesInGivenOrder [⟨p0,q0,100,100,[]⟩,⟨p1,q1,100,100,[]⟩,⟨p2,q2,100,100,[]⟩,
      ⟨p3,q3,100,100,[]⟩,⟨p4,q4,100,100,[]⟩,⟨p5,q5,100,100,[]⟩,⟨p6,q6,100,100,[]⟩]
      ⟨3, 10, 10, SizeMode.none, Corner.topLeft⟩ =
    (let bb := boundsOf [⟨p0,q0,100,100,[]⟩,⟨p1,q1,100,100,[]⟩,⟨p2,q2,100,100,[]⟩,
      ⟨p3,q3,100,100,[]⟩,⟨p4,q4,100,100,[]⟩,⟨p5,q5,100,100,[]⟩,⟨p6,q6,100,100,[]⟩]
     [⟨bb.minLeft + 50, bb.minTop + 50, 100, 100, []⟩,
      ⟨bb.minLeft + 160, bb.minTop + 50, 100, 100, []⟩,
      ⟨bb.minLeft + 270, bb.minTop + 50, 100, 100, []⟩,
      ⟨bb.minLeft + 50, bb.minTop + 160, 100, 100, []⟩,
      ⟨bb.minLeft + 160, bb.minTop + 160, 100, 100, []⟩,
      ⟨bb.minLeft + 270, bb.minTop + 160, 100, 100, []⟩,
      ⟨bb.minLeft + 50, bb.minTop + 270, 100, 100, []⟩]) := by
  rw [alignImagesInGivenOrder]
  rw [if_neg (by simp)]
  norm_num [applySizeMode, c3rows, c3tops, c3base, c3gw, List.foldl]
  decide

theorem c3BR_eq (p0 p1 p2 p3 p4 p5 p6 q0 q1 q2 q3 q4 q5 q6 : ℚ) :
    alignImagesInGivenOrder [⟨p0,q0,100,100,[]⟩,⟨p1,q1,100,100,[]⟩,⟨p2,q2,100,100,[]⟩,
      ⟨p3,q3,100,100,[]⟩,⟨p4,q4,100,100,[]⟩,⟨p5,q5,100,100,[]⟩,⟨p6,q6,100,100,[]⟩]
      ⟨3, 10, 10, SizeMode.none, Corner.bottomRight⟩ =
    (let bb := boundsOf [⟨p0,q0,100,100,[]⟩,⟨p1,q1,100,100,[]⟩,⟨p2,q2,100,100,[]⟩,
      ⟨p3,q3,100,100,[]⟩,⟨p4,q4,100,100,[]⟩,⟨p5,q5,100,100,[]⟩,⟨p6,q6,100,100,[]⟩]
     [⟨bb.maxRight - 50, bb.maxBottom - 50, 100, 100, []⟩,
      ⟨bb.maxRight - 160, bb.maxBottom - 50, 100, 100, []⟩,
      ⟨bb.maxRight - 270, bb.maxBottom - 50, 100, 100, []⟩,
      ⟨bb.maxRight - 50, bb.maxBottom - 160, 100, 100, []⟩,
      ⟨bb.maxRight - 160, bb.maxBottom - 160, 100, 100, []⟩,
      ⟨bb.maxRight - 270, bb.maxBottom - 160, 100, 100, []⟩,
      ⟨bb.maxRight - 50, bb.maxBottom - 270, 100, 100, []⟩]) := by
  rw [alignImagesInGivenOrder]
  rw [if_neg (by simp)]
  norm_num [applySizeMode, c3rows, c3tops, c3base, c3gw, List.foldl]
theorem c3mw : maxQ [(100:ℚ),100,100,100,100,100,100] = 100 := by
  norm_num [maxQ, List.foldl]

theorem c3U_TL_eq (p0 p1 p2 p3 p4 p5 p6 q0 q1 q2 q3 q4 q5 q6 : ℚ) :
    alignImagesUniform [⟨p0,q0,100,100,[]⟩,⟨p1,q1,100,100,[]⟩,⟨p2,q2,100,100,[]⟩,
      ⟨p3,q3,100,100,[]⟩,⟨p4,q4,100,100,[]⟩,⟨p5,q5,100,100,[]⟩,⟨p6,q6,100,100,[]⟩]
      ⟨3, 10, 10, SizeMode.none, Corner.topLeft⟩ =
    (let bb := boundsOf [⟨p0,q0,100,100,[]⟩,⟨p1,q1,100,100,[]⟩,⟨p2,q2,100,100,[]⟩,
      ⟨p3,q3,100,100,[]⟩,⟨p4,q4,100,100,[]⟩,⟨p5,q5,100,100,[]⟩,⟨p6,q6,100,100,[]⟩]
     [⟨bb.minLeft + 50, bb.minTop + 50, 100, 100, []⟩,
      ⟨bb.minLeft + 160, bb.minTop + 50, 100, 100, []⟩,
      ⟨bb.minLeft + 270, bb.minTop + 50, 100, 100, []⟩,
      ⟨bb.minLeft + 50, bb.minTop + 160, 100, 100, []⟩,
      ⟨bb.minLeft + 160, bb.minTop + 160, 100, 100, []⟩,
      ⟨bb.minLeft + 270, bb.minTop + 160, 100, 100, []⟩,
      ⟨bb.minLeft + 50, bb.minTop + 270, 100, 100, []⟩]) := by
  rw [alignImagesUniform]
  rw [if_neg (by simp)]
  norm_num [applySizeMode, c3mw, List.enum, List.enumFrom]
  repeat' apply And.intro
  all_goals ring

theorem c3U_BR_eq (p0 p1 p2 p3 p4 p5 p6 q0 q1 q2 q3 q4 q5 q6 : ℚ) :
    alignImagesUniform [⟨p0,q0,100,100,[]⟩,⟨p1,q1,100,100,[]⟩,⟨p2,q2,100,100,[]⟩,
      ⟨p3,q3,100,100,[]⟩,⟨p4,q4,100,100,[]⟩,⟨p5,q5,100,100,[]⟩,⟨p6,q6,100,100,[]⟩]
      ⟨3, 10, 10, SizeMode.none, Corner.bottomRight⟩ =
    (let bb := boundsOf [⟨p0,q0,100,100,[]⟩,⟨p1,q1,100,100,[]⟩,⟨p2,q2,100,100,[]⟩,
      ⟨p3,q3,100,100,[]⟩,⟨p4,q4,100,100,[]⟩,⟨p5,q5,100,100,[]⟩,⟨p6,q6,100,100,[]⟩]
     [⟨bb.maxRight - 50, bb.maxBottom - 50, 100, 100, []⟩,
      ⟨bb.maxRight - 160, bb.maxBottom - 50, 100, 100, []⟩,
      ⟨bb.maxRight - 270, bb.maxBottom - 50, 100, 100, []⟩,
      ⟨bb.maxRight - 50, bb.maxBottom - 160, 100, 100, []⟩,
      ⟨bb.maxRight - 160, bb.maxBottom - 160, 100, 100, []⟩,
      ⟨bb.maxRight - 270, bb.maxBottom - 160, 100, 100, []⟩,
      ⟨bb.maxRight - 50, bb.maxBottom - 270, 100, 100, []⟩]) := by
  rw [alignImagesUniform]
  rw [if_neg (by simp)]
  norm_num [applySizeMode, c3mw, List.enum, List.enumFrom]
  repeat' apply And.intro
  all_goals ring
/-- C3: 7 items of size 100x100, columns=3, gaps 10, for any initial positions:
the top-left layout forms rows of three with a final partial row, adjacent
column centers 110 apart and adjacent row centers 110 apart; the bottom-right
layout of the same input is exactly the top-left layout reflected about the
anchor bounding box (the bounding box of the original item positions), which
reverses row and column order; and the uniform-cell variant of part_003 computes
exactly the same centers in both corners. -/
theorem c3_grid_round_trip (p0 p1 p2 p3 p4 p5 p6 q0 q1 q2 q3 q4 q5 q6 : ℚ) :
    (fun (items : List Img) (tl br : List Img) (bb : Box) (d : Img) =>
      ((tl.getD 0 d).y = (tl.getD 1 d).y ∧ (tl.getD 1 d).y = (tl.getD 2 d).y ∧
        (tl.getD 3 d).y = (tl.getD 4 d).y ∧ (tl.getD 4 d).y = (tl.getD 5 d).y) ∧
      ((tl.getD 3 d).x = (tl.getD 0 d).x ∧ (tl.getD 6 d).x = (tl.getD 0 d).x) ∧
      ((tl.getD 1 d).x - (tl.getD 0 d).x = 110 ∧ (tl.getD 2 d).x - (tl.getD 1 d).x = 110 ∧
        (tl.getD 4 d).x - (tl.getD 3 d).x = 110 ∧ (tl.getD 5 d).x - (tl.getD 4 d).x = 110) ∧
      ((tl.getD 3 d).y - (tl.getD 0 d).y = 110 ∧ (tl.getD 6 d).y - (tl.getD 3 d).y = 110) ∧
      ((br.getD 0 d).x = bb.minLeft + bb.maxRight - (tl.getD 0 d).x ∧
        (br.getD 1 d).x = bb.minLeft + bb.maxRight - (tl.getD 1 d).x ∧
        (br.getD 2 d).x = bb.minLeft + bb.maxRight - (tl.getD 2 d).x ∧
        (br.getD 3 d).x = bb.minLeft + bb.maxRight - (tl.getD 3 d).x ∧
        (br.getD 4 d).x = bb.minLeft + bb.maxRight - (tl.getD 4 d).x ∧
        (br.getD 5 d).x = bb.minLeft + bb.maxRight - (tl.getD 5 d).x ∧
        (br.getD 6 d).x = bb.minLeft + bb.maxRight - (tl.getD 6 d).x) ∧
      ((br.getD 0 d).y = bb.minTop + bb.maxBottom - (tl.getD 0 d).y ∧
        (br.getD 1 d).y = bb.minTop + bb.maxBottom - (tl.getD 1 d).y ∧
        (br.getD 2 d).y = bb.minTop + bb.maxBottom - (tl.getD 2 d).y ∧
        (br.getD 3 d).y = bb.minTop + bb.maxBottom - (tl.getD 3 d).y ∧
        (br.getD 4 d).y = bb.minTop + bb.maxBottom - (tl.getD 4 d).y ∧
        (br.getD 5 d).y = bb.minTop + bb.maxBottom - (tl.getD 5 d).y ∧
        (br.getD 6 d).y = bb.minTop + bb.maxBottom - (tl.getD 6 d).y) ∧
      alignImagesUniform items ⟨3, 10, 10, SizeMode.none, Corner.topLeft⟩ = tl ∧
      alignImagesUniform items ⟨3, 10, 10, SizeMode.none, Corner.bottomRight⟩ = br)
    [⟨p0,q0,100,100,[]⟩,⟨p1,q1,100,100,[]⟩,⟨p2,q2,100,100,[]⟩,⟨p3,q3,100,100,[]⟩,
      ⟨p4,q4,100,100,[]⟩,⟨p5,q5,100,100,[]⟩,⟨p6,q6,100,100,[]⟩]
    (alignImagesInGivenOrder
      [⟨p0,q0,100,100,[]⟩,⟨p1,q1,100,100,[]⟩,⟨p2,q2,100,100,[]⟩,⟨p3,q3,100,100,[]⟩,
        ⟨p4,q4,100,100,[]⟩,⟨p5,q5,100,100,[]⟩,⟨p6,q6,100,100,[]⟩]
      ⟨3, 10, 10, SizeMode.none, Corner.topLeft⟩)
    (alignImagesInGivenOrder
      [⟨p0,q0,100,100,[]⟩,⟨p1,q1,100,100,[]⟩,⟨p2,q2,100,100,[]⟩,⟨p3,q3,100,100,[]⟩,
        ⟨p4,q4,100,100,[]⟩,⟨p5,q5,100,100,[]⟩,⟨p6,q6,100,100,[]⟩]
      ⟨3, 10, 10, SizeMode.none, Corner.bottomRight⟩)
    (boundsOf [⟨p0,q0,100,100,[]⟩,⟨p1,q1,100,100,[]⟩,⟨p2,q2,100,100,[]⟩,⟨p3,q3,100,100,[]⟩,
      ⟨p4,q4,100,100,[]⟩,⟨p5,q5,100,100,[]⟩,⟨p6,q6,100,100,[]⟩])
    ⟨0, 0, 0, 0, []⟩ := by
  simp only [c3TL_eq, c3BR_eq, c3U_TL_eq, c3U_BR_eq]
  norm_num [List.getD]
/-! ### Claim C10: frame property of the alignment -/

theorem foldl_buildBaseStep_len (cols : ℕ) (hGap : ℚ) (rowHeights rowTop : List ℚ) :
    ∀ (l : List (ℕ × Img)) (acc : List (ℚ × ℚ) × List ℚ),
      ((l.foldl (buildBaseStep cols hGap rowHeights rowTop) acc).1).length =
        acc.1.length + l.length := by
  intro l
  induction l with
  | nil => simp
  | cons x xs ih =>
    intro acc
    rw [List.foldl_cons, ih]
    simp [buildBaseStep]
    omega

theorem buildBase_length (images : List Img) (cols rows : ℕ) (hGap : ℚ)
    (rowHeights rowTop : List ℚ) :
    (buildBase images cols rows hGap rowHeights rowTop).length = images.length := by
  unfold buildBase
  rw [foldl_buildBaseStep_len]
  simp

/-- Projections untouched by a zip-with update are read through unchanged. -/
theorem zipWith_get?_proj {α β : Type} (g : Img → α) (f : Img → β → Img)
    (as : List Img) (bs : List β) (hlen : as.length ≤ bs.length)
    (hf : ∀ a b, g (f a b) = g a) (i : ℕ) :
    ((List.zipWith f as bs).get? i).map g = (as.get? i).map g := by
  rw [List.get?_zipWith']
  cases hres : as.get? i with
  | none => simp
  | some a =>
    have hlt : i < as.length := by
      by_contra hge
      rw [List.get?_eq_none.mpr (by omega)] at hres
      exact Option.noConfusion hres
    obtain ⟨b, hb⟩ : ∃ b, bs.get? i = some b := by
      cases hbs : bs.get? i with
      | none => rw [List.get?_eq_none] at hbs; omega
      | some b => exact ⟨b, rfl⟩
    rw [hb]
    simp [hf]

/-- The final placement loop only writes `x` and `y`: any other projection of
the output equals that of the size-normalised input. -/
theorem align_get?_proj {α : Type} (images : List Img) (cfg : AlignConfig) (i : ℕ)
    (g : Img → α)
    (hg : ∀ (img : Img) (a b : ℚ), g { img with x := a, y := b } = g img) :
    ((alignImagesInGivenOrder images cfg).get? i).map g =
      ((applySizeMode images cfg.sizeMode).get? i).map g := by
  rw [alignImagesInGivenOrder]
  by_cases he : images.isEmpty
  · rw [if_pos he]
    have : images = [] := List.isEmpty_iff.mp he
    subst this
    cases hm : cfg.sizeMode <;> simp [applySizeMode]
  · rw [if_neg he]
    apply zipWith_get?_proj
    · rw [buildBase_length]
    · intro a b
      exact hg a _ _

/-- C10: the alignment mutates only `x` and `y` with sizeMode `none` (width,
height and title of every item are unchanged), additionally only `width` with
sizeMode `width` (resp. only `height` with `height`), and never touches titles. -/
theorem c10_frame_effect (images : List Img) (cfg : AlignConfig)
    (hne : images ≠ []) (i : ℕ) :
    (((alignImagesInGivenOrder images cfg).get? i).map Img.title =
      (images.get? i).map Img.title) ∧
    (cfg.sizeMode = SizeMode.none →
      ((alignImagesInGivenOrder images cfg).get? i).map Img.width =
        (images.get? i).map Img.width ∧
      ((alignImagesInGivenOrder images cfg).get? i).map Img.height =
        (images.get? i).map Img.height) ∧
    (cfg.sizeMode = SizeMode.width →
      ((alignImagesInGivenOrder images cfg).get? i).map Img.height =
        (images.get? i).map Img.height) ∧
    (cfg.sizeMode = SizeMode.height →
      ((alignImagesInGivenOrder images cfg).get? i).map Img.width =
        (images.get? i).map Img.width) := by
  refine ⟨?_, ?_, ?_, ?_⟩
  · rw [align_get?_proj images cfg i Img.title (fun img a b => rfl)]
    cases hm : cfg.sizeMode <;>
      simp only [applySizeMode, List.get?_map, Option.map_map] <;>
      cases images.get? i <;> rfl
  · intro hm
    constructor
    · rw [align_get?_proj images cfg i Img.width (fun img a b => rfl), hm]
      simp [applySizeMode]
    · rw [align_get?_proj images cfg i Img.height (fun img a b => rfl), hm]
      simp [applySizeMode]
  · intro hm
    rw [align_get?_proj images cfg i Img.height (fun img a b => rfl), hm]
    simp only [applySizeMode, List.get?_map, Option.map_map]
    cases images.get? i <;> rfl
  · intro hm
    rw [align_get?_proj images cfg i Img.width (fun img a b => rfl), hm]
    simp only [applySizeMode, List.get?_map, Option.map_map]
    cases images.get? i <;> rfl

/-- C10 witness: two concrete widgets aligned with sizeMode `none` keep width,
height and title. -/
theorem c10_frame_effect_witness :
    ((alignImagesInGivenOrder [⟨0, 0, 30, 40, ['a']⟩, ⟨7, 9, 50, 60, ['b']⟩]
        ⟨2, 5, 5, SizeMode.none, Corner.topLeft⟩).get? 1).map Img.title =
      some ['b'] ∧
    ((alignImagesInGivenOrder [⟨0, 0, 30, 40, ['a']⟩, ⟨7, 9, 50, 60, ['b']⟩]
        ⟨2, 5, 5, SizeMode.none, Corner.topLeft⟩).get? 1).map Img.width =
      some 50 := by
  have h := c10_frame_effect [⟨0, 0, 30, 40, ['a']⟩, ⟨7, 9, 50, 60, ['b']⟩]
    ⟨2, 5, 5, SizeMode.none, Corner.topLeft⟩ (by simp) 1
  refine ⟨h.1.trans (by simp), ((h.2.1 rfl).1).trans (by simp)⟩

/-! ### Claim C4: slice plan (src/app.js:855-859 and 1030-1070) -/

/-- The tile edge constant `SLICE_TILE_SIZE` (src/app.js:10). -/
def SLICE_TILE_SIZE : ℕ := 4096

/-- `Math.ceil(extent / tileEdge)` for natural inputs (src/app.js:856-857). -/
def tilesCount (extent tileEdge : ℕ) : ℕ := (extent + tileEdge - 1) / tileEdge

/-- The column widths `Math.min(SLICE_TILE_SIZE, width - tx * SLICE_TILE_SIZE)`
of src/app.js:1033-1036, generalised over the tile edge; the same formula gives
the row heights from the height. -/
def sliceColWidths (width tileEdge : ℕ) : List ℕ :=
  (List.range (tilesCount width tileEdge)).map
    (fun tx => min tileEdge (width - tx * tileEdge))

/-- The slice plan of one oversized source. -/
structure SlicePlan where
  tilesX : ℕ
  tilesY : ℕ
  colWidths : List ℕ
  rowHeights : List ℕ

def planSlice (width height tileEdge : ℕ) : SlicePlan :=
  { tilesX := tilesCount width tileEdge
    tilesY := tilesCount height tileEdge
    colWidths := sliceColWidths width tileEdge
    rowHeights := sliceColWidths height tileEdge }

theorem tilesCount_mul_ge (w E : ℕ) (hE : 0 < E) (hw : 0 < w) :
    w ≤ E * tilesCount w E := by
  have heq := Nat.div_add_mod (w + E - 1) E
  have hr : (w + E - 1) % E < E := Nat.mod_lt _ hE
  rw [tilesCount]
  set a := (w + E - 1) / E with ha
  set b := E * a with hb
  set r := (w + E - 1) % E with hrr
  omega

theorem tilesCount_pred_mul_lt (w E : ℕ) (hE : 0 < E) (hw : 0 < w) :
    E * (tilesCount w E - 1) < w := by
  have hn1 : 1 ≤ tilesCount w E := by
    rw [tilesCount, Nat.one_le_div_iff hE]
    omega
  have heq := Nat.div_add_mod (w + E - 1) E
  have hr : (w + E - 1) % E < E := Nat.mod_lt _ hE
  rw [tilesCount] at hn1 ⊢
  obtain ⟨k, hk⟩ := Nat.exists_eq_add_of_le hn1
  rw [hk]
  have hx : 1 + k - 1 = k := by omega
  rw [hx]
  have hb : E * ((w + E - 1) / E) = E * 1 + E * k := by
    rw [hk, Nat.mul_add]
  rw [hb] at heq
  set r := (w + E - 1) % E with hrr
  set c := E * k with hc
  omega

theorem tilesCount_eq_ceil (w E : ℕ) (hE : 0 < E) :
    tilesCount w E = Nat.ceil ((w:ℚ)/E) := by
  rcases Nat.eq_zero_or_pos w with rfl | hw
  · rw [tilesCount, Nat.div_eq_of_lt (by omega)]
    simp
  · have hn1 : 1 ≤ tilesCount w E := by
      rw [tilesCount, Nat.one_le_div_iff hE]
      omega
    rw [eq_comm, Nat.ceil_eq_iff (by omega)]
    have hEQ : (0:ℚ) < (E:ℚ) := by exact_mod_cast hE
    constructor
    · rw [lt_div_iff₀ hEQ]
      have h2 := tilesCount_pred_mul_lt w E hE hw
      have h2q : ((E * (tilesCount w E - 1) : ℕ) : ℚ) < ((w : ℕ) : ℚ) := by
        exact_mod_cast h2
      push_cast [hn1] at h2q ⊢
      linarith
    · rw [div_le_iff₀ hEQ]
      have h1 := tilesCount_mul_ge w E hE hw
      have h1q : ((w : ℕ) : ℚ) ≤ ((E * tilesCount w E : ℕ) : ℚ) := by exact_mod_cast h1
      push_cast at h1q
      linarith

theorem tilesCount_pos_inv (w E : ℕ) (hE : 0 < E) {tx : ℕ}
    (htx : tx < tilesCount w E) : 0 < w := by
  rcases Nat.eq_zero_or_pos w with rfl | hw
  · rw [tilesCount, Nat.div_eq_of_lt (by omega)] at htx
    exact absurd htx (by omega)
  · exact hw

theorem tx_mul_lt (w E : ℕ) (hE : 0 < E) {tx : ℕ} (htx : tx < tilesCount w E) :
    tx * E < w := by
  have hw := tilesCount_pos_inv w E hE htx
  have h1 := tilesCount_pred_mul_lt w E hE hw
  calc tx * E ≤ (tilesCount w E - 1) * E := Nat.mul_le_mul_right E (by omega)
    _ = E * (tilesCount w E - 1) := Nat.mul_comm _ _
    _ < w := h1

theorem sliceColWidths_getD (w E : ℕ) {tx : ℕ} (htx : tx < tilesCount w E) :
    (sliceColWidths w E).getD tx 0 = min E (w - tx * E) := by
  rw [sliceColWidths, List.getD, List.get?_map, List.get?_range htx]
  rfl

/-- C4: the slice plan has ceil-many tiles per axis, the last column and row are
the exact remainders (never padded), no tile dimension exceeds the tile edge and
none is empty, and the tile rectangles tile the source exactly: every source
pixel lies in exactly one tile. -/
theorem c4_slice_plan (width height tileEdge : ℕ) (hE : 0 < tileEdge) :
    ((planSlice width height tileEdge).tilesX = Nat.ceil ((width:ℚ)/tileEdge) ∧
      (planSlice width height tileEdge).tilesY = Nat.ceil ((height:ℚ)/tileEdge)) ∧
    (0 < width →
      (planSlice width height tileEdge).colWidths.getLast? =
        some (width - ((planSlice width height tileEdge).tilesX - 1) * tileEdge)) ∧
    (0 < height →
      (planSlice width height tileEdge).rowHeights.getLast? =
        some (height - ((planSlice width height tileEdge).tilesY - 1) * tileEdge)) ∧
    (∀ s ∈ (planSlice width height tileEdge).colWidths, 0 < s ∧ s ≤ tileEdge) ∧
    (∀ s ∈ (planSlice width height tileEdge).rowHeights, 0 < s ∧ s ≤ tileEdge) ∧
    (∀ tx < (planSlice width height tileEdge).tilesX,
      tx * tileEdge + (planSlice width height tileEdge).colWidths.getD tx 0 ≤ width) ∧
    (∀ ty < (planSlice width height tileEdge).tilesY,
      ty * tileEdge + (planSlice width height tileEdge).rowHeights.getD ty 0 ≤ height) ∧
    (∀ px py, px < width → py < height →
      ∃! t : ℕ × ℕ,
        t.1 < (planSlice width height tileEdge).tilesX ∧
        t.2 < (planSlice width height tileEdge).tilesY ∧
        t.1 * tileEdge ≤ px ∧
        px < t.1 * tileEdge + (planSlice width height tileEdge).colWidths.getD t.1 0 ∧
        t.2 * tileEdge ≤ py ∧
        py < t.2 * tileEdge + (planSlice width height tileEdge).rowHeights.getD t.2 0) := by
  have hlast : ∀ w : ℕ, 0 < w →
      (sliceColWidths w tileEdge).getLast? =
        some (w - (tilesCount w tileEdge - 1) * tileEdge) := by
    intro w hw
    have hn1 : 1 ≤ tilesCount w tileEdge := by
      rw [tilesCount, Nat.one_le_div_iff hE]
      omega
    have hlen : (sliceColWidths w tileEdge).length = tilesCount w tileEdge := by
      rw [sliceColWidths, List.length_map, List.length_range]
    rw [List.getLast?_eq_get?, hlen]
    rw [sliceColWidths, List.get?_map, List.get?_range (by omega)]
    have hmin : min tileEdge (w - (tilesCount w tileEdge - 1) * tileEdge) =
        w - (tilesCount w tileEdge - 1) * tileEdge := by
      have h1 := tilesCount_mul_ge w tileEdge hE hw
      have h2 : (tilesCount w tileEdge - 1) * tileEdge + tileEdge =
          tilesCount w tileEdge * tileEdge := by
        have := Nat.succ_pred_eq_of_pos (show 0 < tilesCount w tileEdge by omega)
        calc (tilesCount w tileEdge - 1) * tileEdge + tileEdge
            = (tilesCount w tileEdge - 1 + 1) * tileEdge := by ring
          _ = tilesCount w tileEdge * tileEdge := by rw [Nat.sub_add_cancel hn1]
      have h3 : tilesCount w tileEdge * tileEdge = tileEdge * tilesCount w tileEdge :=
        Nat.mul_comm _ _
      omega
    simp only [Option.map_some']
    rw [hmin]
  have hdims : ∀ w : ℕ, ∀ s ∈ sliceColWidths w tileEdge, 0 < s ∧ s ≤ tileEdge := by
    intro w s hs
    rw [sliceColWidths, List.mem_map] at hs
    obtain ⟨tx, htx, rfl⟩ := hs
    rw [List.mem_range] at htx
    have := tx_mul_lt w tileEdge hE htx
    omega
  have hbound : ∀ w : ℕ, ∀ tx < tilesCount w tileEdge,
      tx * tileEdge + (sliceColWidths w tileEdge).getD tx 0 ≤ w := by
    intro w tx htx
    rw [sliceColWidths_getD w tileEdge htx]
    have := tx_mul_lt w tileEdge hE htx
    omega
  have hcover : ∀ w px : ℕ, px < w →
      ∃! tx, tx < tilesCount w tileEdge ∧ tx * tileEdge ≤ px ∧
        px < tx * tileEdge + (sliceColWidths w tileEdge).getD tx 0 := by
    intro w px hpx
    have hw : 0 < w := by omega
    have hdm := Nat.div_add_mod px tileEdge
    have hdr : px % tileEdge < tileEdge := Nat.mod_lt _ hE
    have htx : px / tileEdge < tilesCount w tileEdge := by
      rw [Nat.div_lt_iff_lt_mul hE]
      calc px < w := hpx
        _ ≤ tileEdge * tilesCount w tileEdge := tilesCount_mul_ge w tileEdge hE hw
        _ = tilesCount w tileEdge * tileEdge := Nat.mul_comm _ _
    refine ⟨px / tileEdge, ⟨htx, ?_, ?_⟩, ?_⟩
    · calc px / tileEdge * tileEdge = tileEdge * (px / tileEdge) := Nat.mul_comm _ _
        _ ≤ px := by omega
    · rw [sliceColWidths_getD w tileEdge htx]
      have hc : px / tileEdge * tileEdge = tileEdge * (px / tileEdge) := Nat.mul_comm _ _
      omega
    · intro y hy
      obtain ⟨hy1, hy2, hy3⟩ := hy
      rw [sliceColWidths_getD w tileEdge hy1] at hy3
      have hupper : px < (y + 1) * tileEdge := by
        have hmle : min tileEdge (w - y * tileEdge) ≤ tileEdge := Nat.min_le_left _ _
        calc px < y * tileEdge + min tileEdge (w - y * tileEdge) := hy3
          _ ≤ y * tileEdge + tileEdge := by omega
          _ = (y + 1) * tileEdge := by ring
      exact (Nat.div_eq_of_lt_le hy2 hupper).symm
  refine ⟨⟨tilesCount_eq_ceil width tileEdge hE, tilesCount_eq_ceil height tileEdge hE⟩,
    fun hw => hlast width hw, fun hh => hlast height hh,
    hdims width, hdims height, hbound width, hbound height, ?_⟩
  intro px py hpx hpy
  obtain ⟨tx, ⟨htx1, htx2, htx3⟩, htxu⟩ := hcover width px hpx
  obtain ⟨ty, ⟨hty1, hty2, hty3⟩, htyu⟩ := hcover height py hpy
  refine ⟨(tx, ty), ⟨htx1, hty1, htx2, htx3, hty2, hty3⟩, ?_⟩
  rintro ⟨y1, y2⟩ ⟨h1, h2, h3, h4, h5, h6⟩
  have e1 := htxu y1 ⟨h1, h3, h4⟩
  have e2 := htyu y2 ⟨h2, h5, h6⟩
  simp [e1, e2]

/-- C4 witness: a 10000 x 5000 source with tile edge 4096 splits into 3 x 2
tiles with remainder column 1808 and remainder row 904. -/
theorem c4_slice_plan_witness :
    (planSlice 10000 5000 4096).tilesX = 3 ∧
    (planSlice 10000 5000 4096).colWidths = [4096, 4096, 1808] ∧
    (planSlice 10000 5000 4096).rowHeights = [4096, 904] ∧
    (planSlice 10000 5000 4096).colWidths.getLast? = some (10000 - 2 * 4096) := by
  have h := c4_slice_plan 10000 5000 4096 (by decide)
  refine ⟨by decide, by decide, by decide, ?_⟩
  have h2 := h.2.1 (by decide)
  simpa using h2

/-! ### Claim C5: tile encoder byte budget

The JPEG encoder is abstracted as `encode : ℚ → ℕ` giving, for the fixed canvas
content, the length of the data-URL string produced at a given quality
(`canvas.toDataURL` is deterministic for a fixed canvas). -/

/-- `MAX_URL_BYTES` of src/app.js:14. -/
def MAX_URL_BYTES_APP : ℕ := 30000000

/-- `MAX_URL_BYTES` of src/unnamed/part_003:421 (the hard cap). -/
def MAX_URL_BYTES_P3 : ℕ := 29000000

/-- `TARGET_URL_BYTES` of src/unnamed/part_003:422. -/
def TARGET_URL_BYTES : ℕ := 4500000

/-- The `while` loop of src/app.js:517-520: lower quality by 0.1 while the
encoding is over `maxBytes` and quality is above 0.3. -/
def lowerLoopApp (encode : ℚ → ℕ) (maxBytes : ℕ) (quality : ℚ) (dataUrl : ℕ) :
    ℚ × ℕ :=
  if h : dataUrl > maxBytes ∧ quality > 3/10 then
    lowerLoopApp encode maxBytes (quality - 1/10) (encode (quality - 1/10))
  else (quality, dataUrl)
termination_by (⌊quality * 10⌋).toNat
decreasing_by
  have h2 : (quality - 1/10) * 10 = quality * 10 - (1 : ℤ) := by push_cast; ring
  rw [h2, Int.floor_sub_int]
  have h3 : (3:ℤ) ≤ ⌊quality * 10⌋ := by
    rw [Int.le_floor]
    push_cast
    linarith [h.2]
  omega

/-- Embeds `canvasToDataUrlUnderLimit` of src/app.js:513-532: start at quality
0.9, lower while over the limit, and return `null` (here `none`) if still over. -/
def canvasToDataUrlUnderLimitApp (encode : ℚ → ℕ)
    (maxBytes : ℕ := MAX_URL_BYTES_APP) : Option ℕ :=
  if (lowerLoopApp encode maxBytes (9/10) (encode (9/10))).2 > maxBytes then none
  else some (lowerLoopApp encode maxBytes (9/10) (encode (9/10))).2

/-- The `while` loop of src/unnamed/part_003:952-955: lower quality by 0.05
while over the hard limit and above the floor 0.25. -/
def lowerLoopP3 (encode : ℚ → ℕ) (hardLimit : ℕ) (quality : ℚ) (dataUrl : ℕ) :
    ℚ × ℕ :=
  if h : dataUrl > hardLimit ∧ quality > 1/4 then
    lowerLoopP3 encode hardLimit (quality - 1/20) (encode (quality - 1/20))
  else (quality, dataUrl)
termination_by (⌊quality * 20⌋).toNat
decreasing_by
  have h2 : (quality - 1/20) * 20 = quality * 20 - (1 : ℤ) := by push_cast; ring
  rw [h2, Int.floor_sub_int]
  have h3 : (5:ℤ) ≤ ⌊quality * 20⌋ := by
    rw [Int.le_floor]
    push_cast
    linarith [h.2]
  omega

/-- Embeds `canvasToDataUrlUnderLimit` of src/unnamed/part_003:926-963: try
qualities 0.85, 0.82, 0.80 against the target `min maxBytes hardLimit`; keep
0.80 if under the hard limit; otherwise lower quality down to the floor 0.25,
and if even that exceeds the hard limit return the floor-quality encoding
anyway. -/
def canvasToDataUrlUnderLimitP3 (encode : ℚ → ℕ)
    (maxBytes : ℕ := TARGET_URL_BYTES) : ℕ :=
  if encode (17/20) ≤ min maxBytes MAX_URL_BYTES_P3 then encode (17/20)
  else if encode (41/50) ≤ min maxBytes MAX_URL_BYTES_P3 then encode (41/50)
  else if encode (4/5) ≤ min maxBytes MAX_URL_BYTES_P3 then encode (4/5)
  else if encode (4/5) ≤ MAX_URL_BYTES_P3 then encode (4/5)
  else if (lowerLoopP3 encode MAX_URL_BYTES_P3 (4/5) (encode (4/5))).2 >
      MAX_URL_BYTES_P3 then encode (1/4)
  else (lowerLoopP3 encode MAX_URL_BYTES_P3 (4/5) (encode (4/5))).2

/-- For a constant encoder the loop can only return the constant or its input. -/
theorem lowerLoopP3_const (c hard : ℕ) :
    ∀ (n : ℕ) (q : ℚ) (d : ℕ), (⌊q * 20⌋).toNat ≤ n →
      ((lowerLoopP3 (fun _ => c) hard q d).2 = d ∨
        (lowerLoopP3 (fun _ => c) hard q d).2 = c) := by
  intro n
  induction n with
  | zero =>
    intro q d hm
    rw [lowerLoopP3]
    split_ifs with h
    · exfalso
      have h3 : (5:ℤ) ≤ ⌊q * 20⌋ := by
        rw [Int.le_floor]
        push_cast
        linarith [h.2]
      omega
    · exact Or.inl rfl
  | succ n ih =>
    intro q d hm
    rw [lowerLoopP3]
    split_ifs with h
    · have hdec : (⌊(q - 1/20) * 20⌋).toNat ≤ n := by
        have h2 : (q - 1/20) * 20 = q * 20 - (1 : ℤ) := by push_cast; ring
        rw [h2, Int.floor_sub_int]
        have h3 : (5:ℤ) ≤ ⌊q * 20⌋ := by
          rw [Int.le_floor]
          push_cast
          linarith [h.2]
        omega
      rcases ih (q - 1/20) c hdec with h2 | h2
      · exact Or.inr h2
      · exact Or.inr h2
    · exact Or.inl rfl

/-- C5 counterexample: with a bitmap whose encoding has length
`MAX_URL_BYTES_P3 + 1` at every quality, the part_003 encoder returns a string
strictly longer than the hard byte cap. -/
theorem c5_counterexample :
    canvasToDataUrlUnderLimitP3 (fun _ => MAX_URL_BYTES_P3 + 1) TARGET_URL_BYTES
      > MAX_URL_BYTES_P3 := by
  rw [canvasToDataUrlUnderLimitP3]
  rw [if_neg (by norm_num [MAX_URL_BYTES_P3, TARGET_URL_BYTES]),
    if_neg (by norm_num [MAX_URL_BYTES_P3, TARGET_URL_BYTES]),
    if_neg (by norm_num [MAX_URL_BYTES_P3, TARGET_URL_BYTES]),
    if_neg (by norm_num [MAX_URL_BYTES_P3])]
  rcases lowerLoopP3_const (MAX_URL_BYTES_P3 + 1) MAX_URL_BYTES_P3
      (⌊(4/5 : ℚ) * 20⌋).toNat (4/5) (MAX_URL_BYTES_P3 + 1) (le_refl _) with h | h <;>
    rw [if_pos (by rw [h]; omega)] <;> omega

/-- C5 (amended): the app.js encoder never returns a string over its byte limit
(it returns null instead); the part_003 encoder returns a string of length at
most the hard cap unless even the minimum-quality floor exceeds the cap, in
which case it returns the floor-quality (0.25) encoding even though it is over
the cap. -/
theorem c5_byte_budget (encode : ℚ → ℕ) (maxBytes : ℕ) (r : ℕ)
    (happ : canvasToDataUrlUnderLimitApp encode maxBytes = some r) :
    r ≤ maxBytes ∧
    (canvasToDataUrlUnderLimitP3 encode maxBytes ≤ MAX_URL_BYTES_P3 ∨
      canvasToDataUrlUnderLimitP3 encode maxBytes = encode (1/4)) := by
  constructor
  · rw [canvasToDataUrlUnderLimitApp] at happ
    by_cases hc : (lowerLoopApp encode maxBytes (9/10) (encode (9/10))).2 > maxBytes
    · rw [if_pos hc] at happ
      exact Option.noConfusion happ
    · rw [if_neg hc] at happ
      have := Option.some.inj happ
      omega
  · rw [canvasToDataUrlUnderLimitP3]
    split_ifs with h1 h2 h3 h4 h5
    · exact Or.inl (le_trans h1 (Nat.min_le_right _ _))
    · exact Or.inl (le_trans h2 (Nat.min_le_right _ _))
    · exact Or.inl (le_trans h3 (Nat.min_le_right _ _))
    · exact Or.inl h4
    · exact Or.inr rfl
    · exact Or.inl (by omega)

/-- C5 witness: an encoder that always produces 100 bytes is returned unchanged
by the app.js variant and is under the limit. -/
theorem c5_byte_budget_witness :
    canvasToDataUrlUnderLimitApp (fun _ => 100) MAX_URL_BYTES_APP = some 100 ∧
    (100 : ℕ) ≤ MAX_URL_BYTES_APP := by
  have hloop : lowerLoopApp (fun _ => (100:ℕ)) MAX_URL_BYTES_APP (9/10) 100 =
      (9/10, 100) := by
    rw [lowerLoopApp, dif_neg (by norm_num [MAX_URL_BYTES_APP])]
  have heq : canvasToDataUrlUnderLimitApp (fun _ => 100) MAX_URL_BYTES_APP =
      some 100 := by
    rw [canvasToDataUrlUnderLimitApp, hloop,
      if_neg (by norm_num [MAX_URL_BYTES_APP])]
  exact ⟨heq, (c5_byte_budget (fun _ => 100) MAX_URL_BYTES_APP 100 heq).1⟩

/-! ### Claim C8: upload retry policy -/
def CREATE_IMAGE_MAX_RETRIES : ℕ := 5

def CREATE_IMAGE_BASE_DELAY_MS : ℕ := 500

def retryGo {E R : Type} (outcomes : ℕ → Except E R) (rand : ℕ → ℚ)
    (attempt : ℕ) : Except E R × ℕ × List ℚ :=
  match outcomes attempt with
  | .ok r => (.ok r, attempt + 1, [])
  | .error e =>
    if h : attempt + 1 > CREATE_IMAGE_MAX_RETRIES then (.error e, attempt + 1, [])
    else
      (fun rest => (rest.1, rest.2.1,
        ((CREATE_IMAGE_BASE_DELAY_MS : ℚ) * 2 ^ attempt + rand (attempt + 1) * 250) ::
          rest.2.2))
        (retryGo outcomes rand (attempt + 1))
termination_by CREATE_IMAGE_MAX_RETRIES + 1 - attempt
decreasing_by
  simp only [CREATE_IMAGE_MAX_RETRIES] at *
  omega

def createImageWithRetry {E R : Type} (outcomes : ℕ → Except E R) (rand : ℕ → ℚ) :
    Except E R × ℕ × List ℚ := retryGo outcomes rand 0

theorem retryGo_ok {E R : Type} (outcomes : ℕ → Except E R) (rand : ℕ → ℚ)
    (attempt : ℕ) (r : R) (h : outcomes attempt = .ok r) :
    retryGo outcomes rand attempt = (.ok r, attempt + 1, []) := by
  rw [retryGo, h]

theorem retryGo_err_last {E R : Type} (outcomes : ℕ → Except E R) (rand : ℕ → ℚ)
    (attempt : ℕ) (e : E) (h : outcomes attempt = .error e)
    (hlast : attempt + 1 > CREATE_IMAGE_MAX_RETRIES) :
    retryGo outcomes rand attempt = (.error e, attempt + 1, []) := by
  rw [retryGo, h]
  simp only [dif_pos hlast]

theorem retryGo_err_step {E R : Type} (outcomes : ℕ → Except E R) (rand : ℕ → ℚ)
    (attempt : ℕ) (e : E) (h : outcomes attempt = .error e)
    (hlast : ¬ attempt + 1 > CREATE_IMAGE_MAX_RETRIES) :
    retryGo outcomes rand attempt =
      ((retryGo outcomes rand (attempt + 1)).1,
       (retryGo outcomes rand (attempt + 1)).2.1,
       ((CREATE_IMAGE_BASE_DELAY_MS : ℚ) * 2 ^ attempt + rand (attempt + 1) * 250) ::
         (retryGo outcomes rand (attempt + 1)).2.2) := by
  rw [retryGo, h]
  simp only [dif_neg hlast]

theorem retryGo_spec {E R : Type} (outcomes : ℕ → Except E R) (rand : ℕ → ℚ) :
    ∀ (n attempt : ℕ), attempt + n = CREATE_IMAGE_MAX_RETRIES →
    ((retryGo outcomes rand attempt).2.1 ≤ CREATE_IMAGE_MAX_RETRIES + 1) ∧
    (∀ i (hi : i < (retryGo outcomes rand attempt).2.2.length),
      (retryGo outcomes rand attempt).2.2.get ⟨i, hi⟩ =
        (CREATE_IMAGE_BASE_DELAY_MS : ℚ) * 2 ^ (attempt + i) +
          rand (attempt + i + 1) * 250) ∧
    (∀ j r, outcomes j = .ok r →
      (∀ i, attempt ≤ i → i < j → ∃ e, outcomes i = .error e) →
      attempt ≤ j → j ≤ CREATE_IMAGE_MAX_RETRIES →
      (retryGo outcomes rand attempt).1 = .ok r ∧
        (retryGo outcomes rand attempt).2.1 = j + 1) ∧
    ((∀ i, attempt ≤ i → i ≤ CREATE_IMAGE_MAX_RETRIES → ∃ e, outcomes i = .error e) →
      (retryGo outcomes rand attempt).1 = outcomes CREATE_IMAGE_MAX_RETRIES ∧
        (retryGo outcomes rand attempt).2.1 = CREATE_IMAGE_MAX_RETRIES + 1) := by
  intro n
  induction n with
  | zero =>
    intro attempt hat
    simp only [Nat.add_zero] at hat
    subst hat
    cases houtcome : outcomes CREATE_IMAGE_MAX_RETRIES with
    | ok r =>
      rw [retryGo_ok outcomes rand _ r houtcome]
      refine ⟨by simp, ?_, ?_, ?_⟩
      · intro i hi
        simp at hi
      · intro j r' hj hbefore hj1 hj2
        have hjeq : j = CREATE_IMAGE_MAX_RETRIES := le_antisymm hj2 hj1
        subst hjeq
        rw [houtcome] at hj
        exact ⟨by rw [Except.ok.injEq] at hj; rw [hj], rfl⟩
      · intro hall
        obtain ⟨e, he⟩ := hall CREATE_IMAGE_MAX_RETRIES le_rfl le_rfl
        rw [houtcome] at he
        exact absurd he (by simp)
    | error e =>
      rw [retryGo_err_last outcomes rand _ e houtcome (by omega)]
      refine ⟨by simp, ?_, ?_, ?_⟩
      · intro i hi
        simp at hi
      · intro j r' hj hbefore hj1 hj2
        have hjeq : j = CREATE_IMAGE_MAX_RETRIES := le_antisymm hj2 hj1
        subst hjeq
        rw [houtcome] at hj
        exact absurd hj (by simp)
      · intro hall
        exact ⟨rfl, rfl⟩
  | succ n ih =>
    intro attempt hat
    have hlt : attempt < CREATE_IMAGE_MAX_RETRIES := by omega
    cases houtcome : outcomes attempt with
    | ok r =>
      rw [retryGo_ok outcomes rand _ r houtcome]
      refine ⟨by simp; omega, ?_, ?_, ?_⟩
      · intro i hi
        simp at hi
      · intro j r' hj hbefore hj1 hj2
        rcases Nat.lt_or_ge attempt j with hcase | hcase
        · obtain ⟨e, he⟩ := hbefore attempt le_rfl hcase
          rw [houtcome] at he
          exact absurd he (by simp)
        · have hjeq : j = attempt := le_antisymm hcase hj1
          subst hjeq
          rw [houtcome] at hj
          exact ⟨by rw [Except.ok.injEq] at hj; rw [hj], rfl⟩
      · intro hall
        obtain ⟨e, he⟩ := hall attempt le_rfl (by omega)
        rw [houtcome] at he
        exact absurd he (by simp)
    | error e =>
      rw [retryGo_err_step outcomes rand _ e houtcome (by omega)]
      obtain ⟨ih1, ih2, ih3, ih4⟩ := ih (attempt + 1) (by omega)
      refine ⟨by simpa using ih1, ?_, ?_, ?_⟩
      · intro i hi
        match i with
        | 0 =>
          simp only [List.get]
          norm_num
        | Nat.succ i' =>
          have hi' : i' < (retryGo outcomes rand (attempt + 1)).2.2.length := by
            simpa using hi
          have harg1 : attempt + 1 + i' = attempt + (i' + 1) := by omega
          have h2 := ih2 i' hi'
          rw [harg1] at h2
          exact h2
      · intro j r' hj hbefore hj1 hj2
        have hne : attempt ≠ j := by
          intro hcontra
          subst hcontra
          rw [houtcome] at hj
          exact absurd hj (by simp)
        have hj1' : attempt + 1 ≤ j := by omega
        have hbefore' : ∀ i, attempt + 1 ≤ i → i < j → ∃ e, outcomes i = .error e :=
          fun i hi1 hi2 => hbefore i (by omega) hi2
        obtain ⟨hres, hcount⟩ := ih3 j r' hj hbefore' hj1' hj2
        exact ⟨hres, hcount⟩
      · intro hall
        have hall' : ∀ i, attempt + 1 ≤ i → i ≤ CREATE_IMAGE_MAX_RETRIES →
            ∃ e, outcomes i = .error e :=
          fun i hi1 hi2 => hall i (by omega) hi2
        obtain ⟨hres, hcount⟩ := ih4 hall'
        exact ⟨hres, hcount⟩


/-- C8: `createImageWithRetry` makes at most 1 + CREATE_IMAGE_MAX_RETRIES create
attempts; the delay slept before retry attempt k (k-th element of the recorded
delay list, 0-indexed i = k-1) is exactly CREATE_IMAGE_BASE_DELAY_MS * 2^(k-1)
plus jitter rand*250 in [0, 250); it returns the first successful outcome
(having made exactly j+1 attempts when attempt j is the first success), and
surfaces the last error only after all attempts fail. -/
theorem c8_retry_policy {E R : Type} (outcomes : ℕ → Except E R) (rand : ℕ → ℚ)
    (hrand : ∀ n, 0 ≤ rand n ∧ rand n < 1) :
    ((createImageWithRetry outcomes rand).2.1 ≤ CREATE_IMAGE_MAX_RETRIES + 1) ∧
    (∀ i (hi : i < (createImageWithRetry outcomes rand).2.2.length),
      (createImageWithRetry outcomes rand).2.2.get ⟨i, hi⟩ =
        (CREATE_IMAGE_BASE_DELAY_MS : ℚ) * 2 ^ i + rand (i + 1) * 250 ∧
      (CREATE_IMAGE_BASE_DELAY_MS : ℚ) * 2 ^ i ≤
        (createImageWithRetry outcomes rand).2.2.get ⟨i, hi⟩ ∧
      (createImageWithRetry outcomes rand).2.2.get ⟨i, hi⟩ <
        (CREATE_IMAGE_BASE_DELAY_MS : ℚ) * 2 ^ i + 250) ∧
    (∀ j r, outcomes j = .ok r →
      (∀ i, i < j → ∃ e, outcomes i = .error e) → j ≤ CREATE_IMAGE_MAX_RETRIES →
      (createImageWithRetry outcomes rand).1 = .ok r ∧
        (createImageWithRetry outcomes rand).2.1 = j + 1) ∧
    ((∀ i, i ≤ CREATE_IMAGE_MAX_RETRIES → ∃ e, outcomes i = .error e) →
      (createImageWithRetry outcomes rand).1 = outcomes CREATE_IMAGE_MAX_RETRIES ∧
        (createImageWithRetry outcomes rand).2.1 = CREATE_IMAGE_MAX_RETRIES + 1) := by
  obtain ⟨h1, h2, h3, h4⟩ :=
    retryGo_spec outcomes rand CREATE_IMAGE_MAX_RETRIES 0 (by omega)
  simp only [createImageWithRetry]
  refine ⟨h1, ?_, ?_, ?_⟩
  · intro i hi
    have h2' := h2 i hi
    simp only [Nat.zero_add] at h2'
    have hr := hrand (i + 1)
    refine ⟨h2', ?_, ?_⟩
    · rw [h2']
      have : 0 ≤ rand (i + 1) * 250 := mul_nonneg hr.1 (by norm_num)
      linarith
    · rw [h2']
      have : rand (i + 1) * 250 < 1 * 250 :=
        mul_lt_mul_of_pos_right hr.2 (by norm_num)
      linarith
  · intro j r hj hbefore hj2
    exact h3 j r hj (fun i _ hij => hbefore i hij) (Nat.zero_le j) hj2
  · intro hall
    exact h4 (fun i _ hi2 => hall i hi2)

/-- C8 witness: with outcomes failing on attempts 0 and 1 and succeeding on
attempt 2, the retry wrapper returns the success after exactly 3 attempts. -/
theorem c8_retry_policy_witness :
    (createImageWithRetry
        (fun n => if n < 2 then (Except.error n : Except ℕ ℕ) else Except.ok 42)
        (fun _ => 0)).1 = Except.ok 42 ∧
    (createImageWithRetry
        (fun n => if n < 2 then (Except.error n : Except ℕ ℕ) else Except.ok 42)
        (fun _ => 0)).2.1 = 3 :=
  (c8_retry_policy
      (fun n => if n < 2 then (Except.error n : Except ℕ ℕ) else Except.ok 42)
      (fun _ => 0) (fun n => by norm_num)).2.2.1 2 42 (by norm_num)
    (fun i hi => ⟨i, by simp [hi]⟩) (by norm_num [CREATE_IMAGE_MAX_RETRIES])

/-! ### Claim C9: adaptive upload concurrency -/
/-- Observables of one batch of uploads: wall time in ms, retry events counted
during the batch, and uploaded bytes (tiles created are used only for logging). -/
structure BatchObs where
  dtMs : ℚ
  retries : ℕ
  bytes : ℚ
deriving DecidableEq

/-- The `action` strings recorded by `concurrencyDecisions.push`. -/
inductive AdaptAction where
  | keep
  | down
  | cap
  | accept
  | up
deriving DecidableEq

/-- Mutable state of `runWithAdaptiveConcurrency` between batches. -/
structure AdaptState where
  conc : ℕ
  lockedMax : ℕ
  tpEwma : Option ℚ
  probe : Option (ℕ × ℚ × ℕ)
  cooldown : ℕ
deriving DecidableEq

def GAIN_THRESHOLD : ℚ := 112/100

def PROBE_BATCHES : ℕ := 2

def EWMA_ALPHA : ℚ := 1/4

/-- The `unstable` predicate of src/unnamed/part_003:1880. -/
abbrev unstableB (o : BatchObs) (blen : ℕ) : Prop :=
  (o.retries : ℚ) / (max 1 blen : ℕ) > 35/100 ∨ o.dtMs / (max 1 blen : ℕ) > 15000

/-- The `stable` predicate of src/unnamed/part_003:1881. -/
abbrev stableB (o : BatchObs) (blen : ℕ) : Prop :=
  (o.retries : ℚ) / (max 1 blen : ℕ) < 8/100 ∧ o.dtMs / (max 1 blen : ℕ) < 9000

/-- One iteration of the while loop of `runWithAdaptiveConcurrency`
(src/unnamed/part_003:1846-1930), minus the slicing of `items`: given the batch
observables and the batch length, update the adaptive state and report the
recorded action. -/
def adaptStep (minC : ℕ) (o : BatchObs) (blen : ℕ) (s : AdaptState) :
    AdaptState × AdaptAction :=
  let dtSec := max (1/1000 : ℚ) (o.dtMs / 1000)
  let mbps := o.bytes / 1000000 / dtSec
  let tp := match s.tpEwma with
    | none => mbps
    | some t => EWMA_ALPHA * mbps + (1 - EWMA_ALPHA) * t
  let cd := s.cooldown - 1
  if unstableB o blen ∧ minC < s.conc then
    (⟨s.conc - 1, min s.lockedMax (s.conc - 1), some tp, none, 1⟩, .down)
  else
    match s.probe with
    | some (b, btp, k) =>
      if s.conc = b + 1 then
        if PROBE_BATCHES ≤ k + 1 then
          if tp / max (1/1000000000) btp < GAIN_THRESHOLD then
            (⟨b, b, some tp, none, 1⟩, .cap)
          else
            (⟨s.conc, s.lockedMax, some tp, none, 1⟩, .accept)
        else
          (⟨s.conc, s.lockedMax, some tp, some (b, btp, k + 1), cd⟩, .keep)
      else
        (⟨s.conc, s.lockedMax, some tp, some (b, btp, k), cd⟩, .keep)
    | none =>
      if stableB o blen ∧ cd = 0 ∧ s.conc < s.lockedMax then
        (⟨s.conc + 1, s.lockedMax, some tp, some (s.conc, tp, 0), 1⟩, .up)
      else
        (⟨s.conc, s.lockedMax, some tp, none, cd⟩, .keep)

/-- The initial adaptive state: concurrency clamped into [min, max], locked
ceiling at max (src/unnamed/part_003:1831-1832). -/
def adaptInit (minC maxC initC : ℕ) : AdaptState :=
  ⟨max minC (min maxC initC), maxC, none, none, 0⟩

/-- One line of the recorded decision log, projected to the quantities the
claim speaks about. -/
structure BatchRec where
  batch : ℕ
  blen : ℕ
  concBefore : ℕ
  lockedBefore : ℕ
  concAfter : ℕ
  lockedAfter : ℕ
  action : AdaptAction
deriving DecidableEq

/-- The batch loop of `runWithAdaptiveConcurrency`: while `idx < len`, run a
batch of `min (len - idx) (max (2*conc) 4)` items and update the state. -/
def runAdaptiveAux (minC : ℕ) (obs : ℕ → BatchObs) (len idx : ℕ)
    (s : AdaptState) (b : ℕ) : List BatchRec :=
  if h : idx < len then
    (fun p => ⟨b, min (len - idx) (max (2 * s.conc) 4), s.conc, s.lockedMax,
        p.1.conc, p.1.lockedMax, p.2⟩ ::
      runAdaptiveAux minC obs len (idx + min (len - idx) (max (2 * s.conc) 4))
        p.1 (b + 1))
      (adaptStep minC (obs b) (min (len - idx) (max (2 * s.conc) 4)) s)
  else []
termination_by len - idx
decreasing_by
  have h4 : 4 ≤ max (2 * s.conc) 4 := le_max_right _ _
  have h5 : 1 ≤ min (len - idx) (max (2 * s.conc) 4) :=
    Nat.le_min.mpr ⟨by omega, by omega⟩
  omega

/-- `runWithAdaptiveConcurrency` of src/unnamed/part_003:1812-1935, recording
per batch the concurrency and locked ceiling before and after the adjustment
and the action taken. -/
def runAdaptive (minC maxC initC len : ℕ) (obs : ℕ → BatchObs) : List BatchRec :=
  runAdaptiveAux minC obs len 0 (adaptInit minC maxC initC) 0


/-- Invariant maintained by the adaptive loop between batches. -/
def AdaptInv (minC maxC : ℕ) (s : AdaptState) : Prop :=
  minC ≤ s.conc ∧ s.conc ≤ s.lockedMax ∧ s.lockedMax ≤ maxC ∧
  (∀ b tp k, s.probe = some (b, tp, k) → minC ≤ b ∧ s.conc = b + 1)

theorem adaptStep_inv (minC maxC : ℕ) (o : BatchObs) (blen : ℕ) (s : AdaptState)
    (hs : AdaptInv minC maxC s) :
    AdaptInv minC maxC (adaptStep minC o blen s).1 ∧
    ((adaptStep minC o blen s).1.conc + 1 = s.conc ∨
      (adaptStep minC o blen s).1.conc = s.conc ∨
      (adaptStep minC o blen s).1.conc = s.conc + 1) ∧
    ((adaptStep minC o blen s).1.conc < s.conc →
      ((adaptStep minC o blen s).2 = .down ∧ unstableB o blen ∧ minC < s.conc) ∨
        (adaptStep minC o blen s).2 = .cap) ∧
    (s.conc < (adaptStep minC o blen s).1.conc →
      (adaptStep minC o blen s).2 = .up ∧ stableB o blen ∧
        s.conc < s.lockedMax) := by
  obtain ⟨conc, locked, tpe, pr, cd⟩ := s
  obtain ⟨hs1, hs2, hs3, hs4⟩ := hs
  simp only [AdaptInv] at *
  cases pr with
  | none =>
    simp only [adaptStep]
    split_ifs with h1 h2 <;> dsimp only
    · refine ⟨⟨by omega, ?_, ?_, by simp⟩, by omega, fun _ => Or.inl ⟨rfl, h1.1, h1.2⟩,
        by omega⟩
      · exact Nat.le_min.mpr ⟨by omega, le_rfl⟩
      · exact le_trans (Nat.min_le_left _ _) hs3
    · refine ⟨⟨by omega, by omega, hs3, ?_⟩, by omega, by omega,
        fun _ => ⟨rfl, h2.1, h2.2.2⟩⟩
      intro b tp k hp
      rw [Option.some.injEq, Prod.mk.injEq, Prod.mk.injEq] at hp
      exact ⟨by omega, by omega⟩
    · exact ⟨⟨hs1, hs2, hs3, by simp⟩, by omega, by omega, by omega⟩
  | some p =>
    obtain ⟨b0, btp0, k0⟩ := p
    have hb := hs4 b0 btp0 k0 rfl
    simp only [adaptStep]
    split_ifs with h1 h2 h3 h4 <;> dsimp only
    · refine ⟨⟨by omega, ?_, ?_, by simp⟩, by omega, fun _ => Or.inl ⟨rfl, h1.1, h1.2⟩,
        by omega⟩
      · exact Nat.le_min.mpr ⟨by omega, le_rfl⟩
      · exact le_trans (Nat.min_le_left _ _) hs3
    · refine ⟨⟨hb.1, le_rfl, by omega, by simp⟩, by omega,
        fun _ => Or.inr rfl, by omega⟩
    · exact ⟨⟨hs1, hs2, hs3, by simp⟩, by omega, by omega, by omega⟩
    · refine ⟨⟨hs1, hs2, hs3, ?_⟩, by omega, by omega, by omega⟩
      intro b tp k hp
      rw [Option.some.injEq, Prod.mk.injEq, Prod.mk.injEq] at hp
      exact ⟨by omega, by omega⟩
    · refine ⟨⟨hs1, hs2, hs3, ?_⟩, by omega, by omega, by omega⟩
      intro b tp k hp
      rw [Option.some.injEq, Prod.mk.injEq, Prod.mk.injEq] at hp
      exact ⟨by omega, by omega⟩


theorem runAdaptiveAux_inv (minC maxC : ℕ) (obs : ℕ → BatchObs) (len : ℕ) :
    ∀ (n idx : ℕ) (s : AdaptState) (b : ℕ), len - idx ≤ n →
      AdaptInv minC maxC s →
    (∀ e ∈ runAdaptiveAux minC obs len idx s b,
      (minC ≤ e.concBefore ∧ e.concBefore ≤ maxC) ∧
      (minC ≤ e.concAfter ∧ e.concAfter ≤ maxC) ∧
      e.lockedAfter ≤ maxC ∧
      (e.concAfter + 1 = e.concBefore ∨ e.concAfter = e.concBefore ∨
        e.concAfter = e.concBefore + 1) ∧
      (e.concAfter < e.concBefore →
        (e.action = .down ∧ unstableB (obs e.batch) e.blen ∧
            minC < e.concBefore) ∨ e.action = .cap) ∧
      (e.concBefore < e.concAfter →
        e.action = .up ∧ stableB (obs e.batch) e.blen ∧
          e.concBefore < e.lockedBefore)) ∧
    List.Chain' (fun a b => a.concAfter = b.concBefore)
      (runAdaptiveAux minC obs len idx s b) ∧
    (∀ e, (runAdaptiveAux minC obs len idx s b).head? = some e →
      e.concBefore = s.conc) := by
  intro n
  induction n with
  | zero =>
    intro idx s b hn hInv
    rw [runAdaptiveAux, dif_neg (by omega)]
    exact ⟨by simp, by simp, by simp⟩
  | succ n ih =>
    intro idx s b hn hInv
    by_cases hidx : idx < len
    · rw [runAdaptiveAux, dif_pos hidx]
      obtain ⟨hInv2, hdelta, hdec, hinc⟩ :=
        adaptStep_inv minC maxC (obs b) (min (len - idx) (max (2 * s.conc) 4)) s
          hInv
      have hblen : 1 ≤ min (len - idx) (max (2 * s.conc) 4) := by
        have h4 : 4 ≤ max (2 * s.conc) 4 := le_max_right _ _
        exact Nat.le_min.mpr ⟨by omega, by omega⟩
      have hmeas : len - (idx + min (len - idx) (max (2 * s.conc) 4)) ≤ n := by
        omega
      obtain ⟨ihall, ihchain, ihhead⟩ :=
        ih (idx + min (len - idx) (max (2 * s.conc) 4))
          (adaptStep minC (obs b) (min (len - idx) (max (2 * s.conc) 4)) s).1
          (b + 1) hmeas hInv2
      refine ⟨?_, ?_, ?_⟩
      · intro e he
        rcases List.mem_cons.mp he with he0 | herest
        · subst he0
          dsimp only
          obtain ⟨hc1, hc2, hc3, hc4⟩ := hInv
          obtain ⟨hd1, hd2, hd3, hd4⟩ := hInv2
          exact ⟨⟨hc1, le_trans hc2 hc3⟩, ⟨hd1, le_trans hd2 hd3⟩,
            hd3, hdelta, hdec, hinc⟩
        · exact ihall e herest
      · refine List.chain'_cons'.mpr ⟨?_, ihchain⟩
        intro y hy
        exact (ihhead y hy).symm
      · intro e he
        rw [List.head?_cons, Option.some.injEq] at he
        subst he
        rfl
    · rw [runAdaptiveAux, dif_neg hidx]
      exact ⟨by simp, by simp, by simp⟩

/-- A constant batch observation: each batch takes 1 second, uploads 4 MB and
needs no retries — a perfectly stable, constant-throughput network. -/
def c9obs : ℕ → BatchObs := fun _ => ⟨1000, 0, 4000000⟩

/-- C9 counterexample: with minConcurrency 2, maxConcurrency 6, initial
concurrency 2 and 16 items on a perfectly stable constant-throughput network,
the third batch records action "cap": the concurrency decreases from 3 to 2
(and the locked ceiling drops from 6 to 2) even though that batch is stable and
not unstable — so concurrency does not decrease only on unstable batches. -/
theorem c9_counterexample :
    runAdaptive 2 6 2 16 c9obs =
      [⟨0, 4, 2, 6, 3, 6, .up⟩, ⟨1, 6, 3, 6, 3, 6, .keep⟩,
        ⟨2, 6, 3, 6, 2, 2, .cap⟩] ∧
    ¬ unstableB (c9obs 2) 6 ∧ stableB (c9obs 2) 6 := by
  have hstep0 : adaptStep 2 (c9obs 0) 4 ⟨2, 6, none, none, 0⟩ =
      (⟨3, 6, some 4, some (2, 4, 0), 1⟩, .up) := by
    norm_num [adaptStep, c9obs, EWMA_ALPHA, PROBE_BATCHES, GAIN_THRESHOLD,
      unstableB, stableB, max_def]
  have hstep1 : adaptStep 2 (c9obs 1) 6 ⟨3, 6, some 4, some (2, 4, 0), 1⟩ =
      (⟨3, 6, some 4, some (2, 4, 1), 0⟩, .keep) := by
    norm_num [adaptStep, c9obs, EWMA_ALPHA, PROBE_BATCHES, GAIN_THRESHOLD,
      unstableB, stableB, max_def]
  have hstep2 : adaptStep 2 (c9obs 2) 6 ⟨3, 6, some 4, some (2, 4, 1), 0⟩ =
      (⟨2, 2, some 4, none, 1⟩, .cap) := by
    norm_num [adaptStep, c9obs, EWMA_ALPHA, PROBE_BATCHES, GAIN_THRESHOLD,
      unstableB, stableB, max_def]
  have h3 : runAdaptiveAux 2 c9obs 16 16 ⟨2, 2, some 4, none, 1⟩ 3 = [] := by
    rw [runAdaptiveAux, dif_neg (by norm_num)]
  have h2 : runAdaptiveAux 2 c9obs 16 10 ⟨3, 6, some 4, some (2, 4, 1), 0⟩ 2 =
      [⟨2, 6, 3, 6, 2, 2, .cap⟩] := by
    rw [runAdaptiveAux, dif_pos (by norm_num)]
    norm_num [hstep2, h3]
  have h1 : runAdaptiveAux 2 c9obs 16 4 ⟨3, 6, some 4, some (2, 4, 0), 1⟩ 1 =
      [⟨1, 6, 3, 6, 3, 6, .keep⟩, ⟨2, 6, 3, 6, 2, 2, .cap⟩] := by
    rw [runAdaptiveAux, dif_pos (by norm_num)]
    norm_num [hstep1, h2]
  have h0 : runAdaptiveAux 2 c9obs 16 0 ⟨2, 6, none, none, 0⟩ 0 =
      [⟨0, 4, 2, 6, 3, 6, .up⟩, ⟨1, 6, 3, 6, 3, 6, .keep⟩,
        ⟨2, 6, 3, 6, 2, 2, .cap⟩] := by
    rw [runAdaptiveAux, dif_pos (by norm_num)]
    norm_num [hstep0, h1]
  refine ⟨?_, ?_, ?_⟩
  · rw [runAdaptive]
    exact h0
  · norm_num [unstableB, c9obs, max_def]
  · norm_num [stableB, c9obs, max_def]

/-- C9 (amended): throughout the run, before and after every batch the
concurrency stays in [minConcurrency, maxConcurrency], the locked ceiling stays
at most maxConcurrency, the concurrency changes by at most 1 per batch (and
carries over between consecutive batches); it decreases either with action
"down" on an unstable batch while above the minimum, or with action "cap" when
an unsuccessful probe is reverted (which can happen on a stable batch); it
increases only with action "up", probing on a stable batch while strictly below
the locked ceiling. -/
theorem c9_adaptive_invariants (minC maxC initC len : ℕ) (obs : ℕ → BatchObs)
    (hmm : minC ≤ maxC) :
    (∀ e ∈ runAdaptive minC maxC initC len obs,
      (minC ≤ e.concBefore ∧ e.concBefore ≤ maxC) ∧
      (minC ≤ e.concAfter ∧ e.concAfter ≤ maxC) ∧
      e.lockedAfter ≤ maxC ∧
      (e.concAfter + 1 = e.concBefore ∨ e.concAfter = e.concBefore ∨
        e.concAfter = e.concBefore + 1) ∧
      (e.concAfter < e.concBefore →
        (e.action = .down ∧ unstableB (obs e.batch) e.blen ∧
            minC < e.concBefore) ∨ e.action = .cap) ∧
      (e.concBefore < e.concAfter →
        e.action = .up ∧ stableB (obs e.batch) e.blen ∧
          e.concBefore < e.lockedBefore)) ∧
    List.Chain' (fun a b => a.concAfter = b.concBefore)
      (runAdaptive minC maxC initC len obs) := by
  have hinv0 : AdaptInv minC maxC (adaptInit minC maxC initC) := by
    refine ⟨le_max_left _ _, ?_, le_rfl, by simp [adaptInit]⟩
    exact max_le hmm (min_le_left _ _)
  obtain ⟨h1, h2, h3⟩ :=
    runAdaptiveAux_inv minC maxC obs len len 0 (adaptInit minC maxC initC) 0
      (by omega) hinv0
  rw [runAdaptive]
  exact ⟨h1, h2⟩

/-- C9 witness: the amended invariants instantiated on the counterexample run
(min 2, max 6, initial 2, 16 items, constant stable observations). -/
theorem c9_adaptive_invariants_witness :
    (∀ e ∈ runAdaptive 2 6 2 16 c9obs,
      (2 ≤ e.concBefore ∧ e.concBefore ≤ 6) ∧
      (2 ≤ e.concAfter ∧ e.concAfter ≤ 6) ∧
      e.lockedAfter ≤ 6 ∧
      (e.concAfter + 1 = e.concBefore ∨ e.concAfter = e.concBefore ∨
        e.concAfter = e.concBefore + 1) ∧
      (e.concAfter < e.concBefore →
        (e.action = .down ∧ unstableB (c9obs e.batch) e.blen ∧
            2 < e.concBefore) ∨ e.action = .cap) ∧
      (e.concBefore < e.concAfter →
        e.action = .up ∧ stableB (c9obs e.batch) e.blen ∧
          e.concBefore < e.lockedBefore)) ∧
    List.Chain' (fun a b => a.concAfter = b.concBefore)
      (runAdaptive 2 6 2 16 c9obs) :=
  c9_adaptive_invariants 2 6 2 16 c9obs (by decide)

end GridAlign
